import Mathlib

set_option linter.unusedSectionVars false

/-!
Verification of the `bheap` indexed binary max-heap (`src/lib.rs`).

The Rust structure `BinaryMaxHeap<T: Ord + Uid>` keeps a `Vec<T>` buffer and a
`HashMap<u64, usize>` index from element uids to buffer slots.  We embed the
buffer as a `List T` over a linear order and the hash map as an `AList` from
`Nat` keys to `Nat` slots (`HashMap::insert` returns the previous value, and
insertion replaces an existing key, exactly as `AList.insert` does).  Every
`&mut self` method becomes a function returning the new heap together with the
Rust return value; `&self` methods become pure functions of the heap.  Rust
indexing `buffer[i]` (which panics out of range, and is only ever reached in
range) is embedded as total indexing `bg` with a `default` element.
-/

namespace Bheap

/-- Embedding of the `Uid` trait: a stable unique identifier for elements.
The Rust uid type `u64` is modelled as `Nat`; only equality of uids matters. -/
class Uid (T : Type) where
  uid : T → Nat

open Uid (uid)

variable {T : Type} [LinearOrder T] [Inhabited T] [Uid T]

/-- Total indexing into a buffer: `bg l i` is `buffer[i]`, defaulting out of range. -/
def bg (l : List T) (i : Nat) : T := l.getD i default

/-- Embedding of `Vec::swap(i, j)` on the buffer. -/
def listSwap (l : List T) (i j : Nat) : List T := (l.set i (bg l j)).set j (bg l i)

/-- Embedding of the struct `BinaryMaxHeap<T>`: element buffer plus uid-to-slot index. -/
structure BinaryMaxHeap (T : Type) where
  buffer : List T
  index : AList (fun _ : Nat => Nat)

namespace BinaryMaxHeap

/-- Embedding of `is_empty`. -/
def is_empty (h : BinaryMaxHeap T) : Bool := h.buffer.isEmpty

/-- Embedding of `len`. -/
def len (h : BinaryMaxHeap T) : Nat := h.buffer.length

/-- Embedding of `swap_elems_at_indices`: record slot `j` for the uid of the
element at `i` and slot `i` for the uid of the element at `j`, then swap the
buffer entries. -/
def swap_elems_at_indices (h : BinaryMaxHeap T) (i j : Nat) : BinaryMaxHeap T :=
  let index1 := h.index.insert (uid (bg h.buffer i)) j
  let index2 := index1.insert (uid (bg h.buffer j)) i
  { buffer := listSwap h.buffer i j, index := index2 }

/-- Embedding of the private `cmp` helper: compare the elements at two slots. -/
def cmp (h : BinaryMaxHeap T) (i j : Nat) : Ordering :=
  compare (bg h.buffer i) (bg h.buffer j)

/-- The `while i > 0` loop of `heapify_up`, returning the state and final `i`. -/
def heapify_up_loop (h : BinaryMaxHeap T) (i : Nat) : BinaryMaxHeap T × Nat :=
  if hpos : 0 < i then
    let par := (i - 1) / 2
    if h.cmp i par = Ordering.gt then
      heapify_up_loop (h.swap_elems_at_indices i par) par
    else (h, i)
  else (h, i)
termination_by i
decreasing_by omega

/-- Embedding of `heapify_up`: run the loop, then return `Some` of the final
slot if it differs from the start slot, else `None`. -/
def heapify_up (h : BinaryMaxHeap T) (idx : Nat) : BinaryMaxHeap T × Option Nat :=
  let r := heapify_up_loop h idx
  if r.2 ≠ idx then (r.1, some r.2) else (r.1, none)

/-- The body of `heapify_dn`'s loop that computes `max`: start with `max = i`,
move to the left child if it is strictly greater, then to the right child if it
is strictly greater than the current `max`. -/
def dnSelect (l : List T) (i : Nat) : Nat :=
  let lc := 2 * i + 1
  let rc := 2 * i + 2
  let max1 := if lc < l.length ∧ compare (bg l i) (bg l lc) = Ordering.lt then lc else i
  if rc < l.length ∧ compare (bg l max1) (bg l rc) = Ordering.lt then rc else max1

/-- The `while i < len / 2` loop of `heapify_dn`, returning the state and final `i`. -/
def heapify_dn_loop (h : BinaryMaxHeap T) (i : Nat) : BinaryMaxHeap T × Nat :=
  if _hlt : i < h.buffer.length / 2 then
    let m := dnSelect h.buffer i
    if hne : i ≠ m then
      heapify_dn_loop (h.swap_elems_at_indices i m) m
    else (h, i)
  else (h, i)
termination_by h.buffer.length - i
decreasing_by
  have hm : dnSelect h.buffer i = i ∨ dnSelect h.buffer i = 2 * i + 1 ∨
      dnSelect h.buffer i = 2 * i + 2 := by
    unfold dnSelect
    dsimp only
    split <;> split <;> simp
  have hlen : ((h.swap_elems_at_indices i (dnSelect h.buffer i)).buffer).length =
      h.buffer.length := by
    simp [swap_elems_at_indices, listSwap]
  unfold m at hne
  rcases hm with hm | hm | hm <;> omega

/-- Embedding of `heapify_dn`: run the loop, then return `Some` of the final
slot if it differs from the start slot, else `None`. -/
def heapify_dn (h : BinaryMaxHeap T) (idx : Nat) : BinaryMaxHeap T × Option Nat :=
  let r := heapify_dn_loop h idx
  if r.2 ≠ idx then (r.1, some r.2) else (r.1, none)

/-- Embedding of `update_index`: out of range returns `None`; otherwise insert
`uid(buffer[i]) ↦ i`, returning the previous value for that key as
`HashMap::insert` does. -/
def update_index (h : BinaryMaxHeap T) (i : Nat) : BinaryMaxHeap T × Option Nat :=
  if i ≥ h.buffer.length then (h, none)
  else ({ h with index := h.index.insert (uid (bg h.buffer i)) i },
        h.index.lookup (uid (bg h.buffer i)))

/-- Embedding of `get` (the returned `&mut T` is modelled as the element value). -/
def get (h : BinaryMaxHeap T) (i : Nat) : Option T :=
  if i ≥ h.buffer.length then none else some (bg h.buffer i)

/-- Embedding of `push`: append, record the new slot in the index, sift up. -/
def push (h : BinaryMaxHeap T) (elem : T) : BinaryMaxHeap T :=
  let idx := h.buffer.length
  let h1 : BinaryMaxHeap T := { h with buffer := h.buffer ++ [elem] }
  let h2 := (update_index h1 idx).1
  (heapify_up h2 idx).1

/-- Embedding of `peek`. -/
def peek (h : BinaryMaxHeap T) : Option T :=
  if h.is_empty then none else some (bg h.buffer 0)

/-- Embedding of `pop`.  `Vec::swap_remove(0)` replaces slot 0 with the last
element and shrinks the buffer by one; then the removed uid is erased from the
index, slot 0 is re-indexed, and sift-down runs from slot 0. -/
def pop (h : BinaryMaxHeap T) : BinaryMaxHeap T × Option T :=
  if h.is_empty then (h, none)
  else
    let elem := bg h.buffer 0
    let h1 : BinaryMaxHeap T :=
      { buffer := (h.buffer.set 0 (h.buffer.getLastD default)).dropLast,
        index := h.index.erase (uid elem) }
    let h2 := (update_index h1 0).1
    let h3 := (heapify_dn h2 0).1
    (h3, some elem)

/-- Embedding of `build_index`: one scan recording each element's slot. -/
def build_index (h : BinaryMaxHeap T) : BinaryMaxHeap T :=
  (List.range h.len).foldl (fun acc i => (update_index acc i).1) h

/-- Embedding of `build_heap`: build the index, then sift down from slot
`len/2 - 1` down to slot `0` (the loop `(0..len/2).rev()`). -/
def build_heap (h : BinaryMaxHeap T) : BinaryMaxHeap T :=
  let h1 := build_index h
  ((List.range (h1.len / 2)).reverse).foldl (fun acc i => (heapify_dn acc i).1) h1

/-- Embedding of `restore_heap_property`.  Note the Rust source uses the eager
`Option::or`, so `heapify_dn(idx)` is evaluated even when `heapify_up(idx)`
returned `Some`. -/
def restore_heap_property (h : BinaryMaxHeap T) (idx : Nat) : BinaryMaxHeap T × Option Nat :=
  if idx ≥ h.len then (h, none)
  else
    let r1 := heapify_up h idx
    let r2 := heapify_dn r1.1 idx
    (r2.1, r1.2.or r2.2)

/-- Modelled from the spec for the refinement claim only: the lazy variant
`heapify_up(idx).or_else(|| heapify_dn(idx))`, in which sift-down is attempted
only when sift-up did not move the element. -/
def restore_heap_property_lazy (h : BinaryMaxHeap T) (idx : Nat) :
    BinaryMaxHeap T × Option Nat :=
  if idx ≥ h.len then (h, none)
  else
    match heapify_up h idx with
    | (h1, some r) => (h1, some r)
    | (h1, none) => heapify_dn h1 idx

/-- Embedding of `index_in_heap_from_uid`. -/
def index_in_heap_from_uid (h : BinaryMaxHeap T) (u : Nat) : Option Nat :=
  h.index.lookup u

/-- Embedding of `index_in_heap`. -/
def index_in_heap (h : BinaryMaxHeap T) (elem : T) : Option Nat :=
  h.index.lookup (uid elem)

/-- Embedding of `from_vec`: adopt the vector, then `build_heap` if non-empty. -/
def from_vec (buffer : List T) : BinaryMaxHeap T :=
  let bh : BinaryMaxHeap T := { buffer := buffer, index := ∅ }
  if bh.is_empty then bh else build_heap bh

/-- Embedding of `new`. -/
def new : BinaryMaxHeap T := from_vec []

end BinaryMaxHeap

/-- Slot `c` is a child of slot `a` in the implicit binary tree. -/
def isChild (c a : Nat) : Prop := c = 2 * a + 1 ∨ c = 2 * a + 2

instance (c a : Nat) : Decidable (isChild c a) := by
  unfold isChild; exact inferInstance

/-- The max-heap property of a buffer: every slot with a child in range is at
least its child. -/
def heapProp (l : List T) : Prop :=
  ∀ a b : Nat, isChild b a → b < l.length → bg l b ≤ bg l a

/-- A buffer that is a valid max-heap except possibly at slot `idx` (the element
at `idx` may have had its priority changed): every parent-child pair not
involving `idx` is ordered, and the children of `idx` do not exceed the parent
of `idx`. -/
def validExceptAt (l : List T) (idx : Nat) : Prop :=
  (∀ a b : Nat, isChild b a → b < l.length → a ≠ idx → b ≠ idx → bg l b ≤ bg l a)
  ∧ (∀ b : Nat, isChild b idx → b < l.length → 0 < idx → bg l b ≤ bg l ((idx - 1) / 2))

/-- The caller contract: live elements have pairwise distinct uids. -/
def uidsNodup (l : List T) : Prop := (l.map uid).Nodup

/-- Index consistency: every buffer slot is correctly recorded under its
element's uid, and every key in the index is the uid of some buffer element. -/
def indexConsistent (h : Bheap.BinaryMaxHeap T) : Prop :=
  (∀ i : Nat, i < h.buffer.length → h.index.lookup (uid (bg h.buffer i)) = some i)
  ∧ (∀ u : Nat, u ∈ h.index → ∃ i : Nat, i < h.buffer.length ∧ uid (bg h.buffer i) = u)

/-- Slot `j` lies in the subtree rooted at slot `r` (follow parents from `j`). -/
def inSub (r : Nat) (j : Nat) : Bool :=
  if j = r then true
  else if j < r then false
  else inSub r ((j - 1) / 2)
termination_by j
decreasing_by omega

/-- Loop invariant for sift-up at current slot `i`: the heap property can fail
only on the edge into slot `i`, and the children of `i` do not exceed the
parent of `i`. -/
def UpInv (l : List T) (i : Nat) : Prop :=
  (∀ a b : Nat, isChild b a → b < l.length → b ≠ i → bg l b ≤ bg l a)
  ∧ (∀ b : Nat, isChild b i → b < l.length → 0 < i → bg l b ≤ bg l ((i - 1) / 2))

/-- Loop invariant for sift-down inside the subtree rooted at `r`, at current
slot `c`: the heap property holds on every edge out of a subtree slot other
than `c`, and the children of `c` do not exceed the parent of `c` (when `c` is
not the subtree root). -/
def DnInv (r : Nat) (l : List T) (c : Nat) : Prop :=
  (∀ a b : Nat, isChild b a → b < l.length → inSub r a = true → a ≠ c → bg l b ≤ bg l a)
  ∧ (∀ b : Nat, isChild b c → b < l.length → c ≠ r → bg l b ≤ bg l ((c - 1) / 2))

/-- Iterated `pop`: collect the values of `n` successive `pop` calls. -/
def popN : Bheap.BinaryMaxHeap T → Nat → List T × Bheap.BinaryMaxHeap T
  | h, 0 => ([], h)
  | h, n + 1 =>
    match Bheap.BinaryMaxHeap.pop h with
    | (h1, some x) => let r := popN h1 n; (x :: r.1, r.2)
    | (h1, none) => ([], h1)

/-- Uid instance for naturals, mirroring the test `impl Uid for u32`. -/
instance : Uid Nat where
  uid n := n

theorem child_parent {b a : Nat} (h : isChild b a) : a = (b - 1) / 2 ∧ 0 < b := by
  unfold isChild at h; omega

theorem parent_child {b : Nat} (hb : 0 < b) : isChild b ((b - 1) / 2) := by
  unfold isChild; omega

theorem isChild_gt {b a : Nat} (h : isChild b a) : a < b := by
  unfold isChild at h; omega

theorem bg_eq_getElem (l : List T) (i : Nat) (h : i < l.length) : bg l i = l.get ⟨i, h⟩ :=
  List.getD_eq_getElem l default h

theorem bg_set_self (l : List T) (i : Nat) (a : T) (h : i < l.length) :
    bg (l.set i a) i = a := by
  rw [bg, List.getD_eq_getElem _ _ (by simpa using h), List.getElem_set_self]

theorem bg_set_ne (l : List T) (i j : Nat) (a : T) (hne : i ≠ j) :
    bg (l.set i a) j = bg l j := by
  by_cases hj : j < l.length
  · rw [bg, List.getD_eq_getElem _ _ (by simpa using hj), List.getElem_set_ne hne,
      bg, List.getD_eq_getElem _ _ hj]
  · rw [bg, List.getD_eq_default _ _ (by simp; omega), bg, List.getD_eq_default _ _ (by omega)]

theorem length_listSwap (l : List T) (i j : Nat) : (listSwap l i j).length = l.length := by
  simp [listSwap]

theorem bg_listSwap_fst (l : List T) (i j : Nat) (hi : i < l.length) (hj : j < l.length) :
    bg (listSwap l i j) i = bg l j := by
  by_cases hij : i = j
  · subst hij
    unfold listSwap
    rw [bg_set_self _ _ _ (by simpa using hi)]
  · unfold listSwap
    rw [bg_set_ne _ _ _ _ (Ne.symm hij), bg_set_self _ _ _ hi]

theorem bg_listSwap_snd (l : List T) (i j : Nat) (hj : j < l.length) :
    bg (listSwap l i j) j = bg l i := by
  unfold listSwap
  rw [bg_set_self _ _ _ (by simpa using hj)]

theorem bg_listSwap_other (l : List T) (i j k : Nat) (hki : k ≠ i) (hkj : k ≠ j) :
    bg (listSwap l i j) k = bg l k := by
  unfold listSwap
  rw [bg_set_ne _ _ _ _ (Ne.symm hkj), bg_set_ne _ _ _ _ (Ne.symm hki)]

theorem cons_set_perm (l : List T) (k : Nat) (a : T) (hk : k < l.length) :
    List.Perm (bg l k :: l.set k a) (a :: l) := by
  induction l generalizing k with
  | nil => simp at hk
  | cons b t ih =>
    cases k with
    | zero =>
      simp only [bg, List.getD_cons_zero, List.set_cons_zero]
      exact List.Perm.swap a b t
    | succ k' =>
      have hk' : k' < t.length := by simpa using hk
      simp only [bg, List.getD_cons_succ, List.set_cons_succ]
      have s1 : List.Perm (t.getD k' default :: b :: t.set k' a)
          (b :: t.getD k' default :: t.set k' a) := List.Perm.swap b _ _
      have s2 : List.Perm (b :: t.getD k' default :: t.set k' a) (b :: a :: t) :=
        List.Perm.cons b (ih k' hk')
      have s3 : List.Perm (b :: a :: t) (a :: b :: t) := List.Perm.swap a b t
      exact (s1.trans s2).trans s3

theorem listSwap_perm (l : List T) (i j : Nat) (hi : i < l.length) (hj : j < l.length) :
    List.Perm (listSwap l i j) l := by
  by_cases hij : i = j
  · subst hij
    unfold listSwap
    have hb : bg (l.set i (bg l i)) i = bg l i := bg_set_self _ _ _ hi
    have h1 := cons_set_perm (l.set i (bg l i)) i (bg l i) (by simpa using hi)
    rw [hb] at h1
    have h2 := cons_set_perm l i (bg l i) hi
    exact (h1.trans h2).cons_inv
  · unfold listSwap
    have hj1 : j < (l.set i (bg l j)).length := by simpa using hj
    have h1 : List.Perm (bg (l.set i (bg l j)) j :: (l.set i (bg l j)).set j (bg l i))
        (bg l i :: l.set i (bg l j)) := cons_set_perm _ j (bg l i) hj1
    have h2 : List.Perm (bg l i :: l.set i (bg l j)) (bg l j :: l) := cons_set_perm l i (bg l j) hi
    have h3 : bg (l.set i (bg l j)) j = bg l j := bg_set_ne _ _ _ _ hij
    rw [h3] at h1
    exact (h1.trans h2).cons_inv

theorem bg_append_lt (l : List T) (e : T) (k : Nat) (hk : k < l.length) :
    bg (l ++ [e]) k = bg l k := by
  rw [bg, List.getD_eq_getElem _ _ (by simp; omega), bg, List.getD_eq_getElem _ _ hk]
  exact List.getElem_append_left _

theorem bg_append_self (l : List T) (e : T) : bg (l ++ [e]) l.length = e := by
  rw [bg, List.getD_eq_getElem _ _ (by simp)]
  exact List.getElem_concat_length l e _ rfl _

theorem length_popMid (l : List T) (x : T) :
    ((l.set 0 x).dropLast).length = l.length - 1 := by simp

theorem bg_popMid (l : List T) (x : T) (k : Nat) (hk : 0 < k) (hk2 : k < l.length - 1) :
    bg ((l.set 0 x).dropLast) k = bg l k := by
  rw [bg, List.getD_eq_getElem _ _ (by simp; omega), List.getElem_dropLast,
    List.getElem_set_ne (by omega), bg, List.getD_eq_getElem _ _ (by omega)]

theorem bg_popMid_zero (l : List T) (x : T) (h : 0 < l.length - 1) :
    bg ((l.set 0 x).dropLast) 0 = x := by
  rw [bg, List.getD_eq_getElem _ _ (by simp; omega), List.getElem_dropLast,
    List.getElem_set_self]

theorem popMid_perm (l : List T) (hne : l ≠ []) :
    List.Perm ((l.set 0 (l.getLastD default)).dropLast) l.tail := by
  cases l with
  | nil => simp at hne
  | cons a t =>
    cases ht : t with
    | nil => simp
    | cons b t' =>
      subst ht
      have htne : (b :: t') ≠ [] := by simp
      have hlast : (a :: b :: t').getLastD default = (b :: t').getLast htne := by
        rw [List.getLastD_cons, List.getLastD_eq_getLast?, List.getLast?_eq_getLast _ htne]
        rfl
      simp only [List.set_cons_zero, List.tail_cons, hlast]
      have hsplit : (b :: t').dropLast ++ [(b :: t').getLast htne] = b :: t' :=
        List.dropLast_append_getLast htne
      have hmid : List.Perm ((b :: t').dropLast ++ (b :: t').getLast htne :: ([] : List T))
          ((b :: t').getLast htne :: ((b :: t').dropLast ++ [])) := List.perm_middle
      have hdl : List.Perm ((b :: t').getLast htne :: (b :: t').dropLast) (b :: t') := by
        have h1 : List.Perm ((b :: t').getLast htne :: (b :: t').dropLast)
            ((b :: t').dropLast ++ [(b :: t').getLast htne]) := by
          simpa using hmid.symm
        rw [hsplit] at h1
        exact h1
      have hstep : ((b :: t').getLast htne :: b :: t').dropLast
          = (b :: t').getLast htne :: (b :: t').dropLast := by
        simp
      rw [hstep]
      exact hdl

theorem heapProp_iff (l : List T) :
    heapProp l ↔ ∀ b, b < l.length → 0 < b → bg l b ≤ bg l ((b - 1) / 2) := by
  constructor
  · intro hp b hb hb0
    exact hp _ b (parent_child hb0) hb
  · intro hp a b hc hb
    obtain ⟨ha, hb0⟩ := child_parent hc
    rw [ha]
    exact hp b hb hb0

instance (l : List T) : Decidable (heapProp l) :=
  decidable_of_iff _ (heapProp_iff l).symm

theorem validExceptAt_iff (l : List T) (idx : Nat) :
    validExceptAt l idx ↔
      (∀ b, b < l.length → 0 < b → (b - 1) / 2 ≠ idx → b ≠ idx →
        bg l b ≤ bg l ((b - 1) / 2))
      ∧ (∀ b, b < l.length → isChild b idx → 0 < idx → bg l b ≤ bg l ((idx - 1) / 2)) := by
  constructor
  · intro ⟨h1, h2⟩
    refine ⟨fun b hb hb0 hpne hbne => ?_, fun b hb hc h0 => h2 b hc hb h0⟩
    exact h1 _ b (parent_child hb0) hb hpne hbne
  · intro ⟨h1, h2⟩
    refine ⟨fun a b hc hb hane hbne => ?_, fun b hc hb h0 => h2 b hb hc h0⟩
    obtain ⟨ha, hb0⟩ := child_parent hc
    subst ha
    exact h1 b hb hb0 hane hbne

instance (l : List T) (idx : Nat) : Decidable (validExceptAt l idx) :=
  decidable_of_iff _ (validExceptAt_iff l idx).symm

instance (l : List T) : Decidable (uidsNodup l) := by
  unfold uidsNodup; exact inferInstance

theorem indexConsistent_iff (h : Bheap.BinaryMaxHeap T) :
    indexConsistent h ↔
      (∀ i ∈ List.range h.buffer.length, h.index.lookup (uid (bg h.buffer i)) = some i)
      ∧ (∀ u ∈ h.index.keys, ∃ i ∈ List.range h.buffer.length, uid (bg h.buffer i) = u) := by
  constructor
  · intro ⟨h1, h2⟩
    refine ⟨fun i hi => h1 i (List.mem_range.mp hi), fun u hu => ?_⟩
    obtain ⟨i, hi, he⟩ := h2 u (AList.mem_keys.mpr hu)
    exact ⟨i, List.mem_range.mpr hi, he⟩
  · intro ⟨h1, h2⟩
    refine ⟨fun i hi => h1 i (List.mem_range.mpr hi), fun u hu => ?_⟩
    obtain ⟨i, hi, he⟩ := h2 u (AList.mem_keys.mp hu)
    exact ⟨i, List.mem_range.mp hi, he⟩

instance (h : Bheap.BinaryMaxHeap T) : Decidable (indexConsistent h) :=
  decidable_of_iff _ (indexConsistent_iff h).symm

namespace BinaryMaxHeap

theorem swap_buffer (h : BinaryMaxHeap T) (i j : Nat) :
    (h.swap_elems_at_indices i j).buffer = listSwap h.buffer i j := rfl

theorem swap_index (h : BinaryMaxHeap T) (i j : Nat) :
    (h.swap_elems_at_indices i j).index =
      (h.index.insert (uid (bg h.buffer i)) j).insert (uid (bg h.buffer j)) i := rfl

theorem cmp_gt_iff (h : BinaryMaxHeap T) (i j : Nat) :
    h.cmp i j = Ordering.gt ↔ bg h.buffer j < bg h.buffer i := by
  unfold cmp; exact compare_gt_iff_gt

theorem cmp_lt_iff (h : BinaryMaxHeap T) (i j : Nat) :
    h.cmp i j = Ordering.lt ↔ bg h.buffer i < bg h.buffer j := by
  unfold cmp; exact compare_lt_iff_lt

theorem up_loop_step (h : BinaryMaxHeap T) (i : Nat) (h0 : 0 < i)
    (hc : h.cmp i ((i - 1) / 2) = Ordering.gt) :
    heapify_up_loop h i =
      heapify_up_loop (h.swap_elems_at_indices i ((i - 1) / 2)) ((i - 1) / 2) := by
  rw [heapify_up_loop]
  simp [h0, hc]

theorem up_loop_stop (h : BinaryMaxHeap T) (i : Nat)
    (hstop : ¬(0 < i ∧ h.cmp i ((i - 1) / 2) = Ordering.gt)) :
    heapify_up_loop h i = (h, i) := by
  rw [heapify_up_loop]
  by_cases h0 : 0 < i
  · have hc : ¬ h.cmp i ((i - 1) / 2) = Ordering.gt := fun hc => hstop ⟨h0, hc⟩
    simp [h0, hc]
  · simp [h0]

theorem up_loop_length (i : Nat) (h : BinaryMaxHeap T) :
    ((heapify_up_loop h i).1.buffer).length = h.buffer.length := by
  induction i using Nat.strong_induction_on generalizing h with
  | _ i IH =>
    by_cases hg : 0 < i ∧ h.cmp i ((i - 1) / 2) = Ordering.gt
    · rw [up_loop_step h i hg.1 hg.2, IH _ (by omega), swap_buffer, length_listSwap]
    · rw [up_loop_stop h i hg]

theorem up_loop_le (i : Nat) (h : BinaryMaxHeap T) : (heapify_up_loop h i).2 ≤ i := by
  induction i using Nat.strong_induction_on generalizing h with
  | _ i IH =>
    by_cases hg : 0 < i ∧ h.cmp i ((i - 1) / 2) = Ordering.gt
    · rw [up_loop_step h i hg.1 hg.2]
      exact le_trans (IH _ (by omega) _) (by omega)
    · rw [up_loop_stop h i hg]

theorem up_loop_above (i : Nat) (h : BinaryMaxHeap T) (j : Nat) (hij : i < j) :
    bg (heapify_up_loop h i).1.buffer j = bg h.buffer j := by
  induction i using Nat.strong_induction_on generalizing h with
  | _ i IH =>
    by_cases hg : 0 < i ∧ h.cmp i ((i - 1) / 2) = Ordering.gt
    · rw [up_loop_step h i hg.1 hg.2, IH _ (by omega) _ (by omega), swap_buffer,
        bg_listSwap_other _ _ _ _ (by omega) (by omega)]
    · rw [up_loop_stop h i hg]

theorem up_loop_at (i : Nat) (h : BinaryMaxHeap T) (hi : i < h.buffer.length) :
    bg (heapify_up_loop h i).1.buffer (heapify_up_loop h i).2 = bg h.buffer i := by
  induction i using Nat.strong_induction_on generalizing h with
  | _ i IH =>
    by_cases hg : 0 < i ∧ h.cmp i ((i - 1) / 2) = Ordering.gt
    · rw [up_loop_step h i hg.1 hg.2,
        IH _ (by omega) _ (by rw [swap_buffer, length_listSwap]; omega),
        swap_buffer, bg_listSwap_snd _ _ _ (by omega)]
    · rw [up_loop_stop h i hg]

theorem up_loop_perm (i : Nat) (h : BinaryMaxHeap T) (hi : i < h.buffer.length) :
    List.Perm (heapify_up_loop h i).1.buffer h.buffer := by
  induction i using Nat.strong_induction_on generalizing h with
  | _ i IH =>
    by_cases hg : 0 < i ∧ h.cmp i ((i - 1) / 2) = Ordering.gt
    · rw [up_loop_step h i hg.1 hg.2]
      have h1 := IH _ (show (i - 1) / 2 < i by omega) (h.swap_elems_at_indices i ((i - 1) / 2))
        (by rw [swap_buffer, length_listSwap]; omega)
      exact h1.trans (by rw [swap_buffer]; exact listSwap_perm _ _ _ hi (by omega))
    · rw [up_loop_stop h i hg]

theorem up_loop_at_start (i : Nat) (h : BinaryMaxHeap T) (h0 : 0 < i)
    (hc : h.cmp i ((i - 1) / 2) = Ordering.gt) (hi : i < h.buffer.length) :
    bg (heapify_up_loop h i).1.buffer i = bg h.buffer ((i - 1) / 2) := by
  rw [up_loop_step h i h0 hc, up_loop_above _ _ _ (by omega), swap_buffer,
    bg_listSwap_fst _ _ _ hi (by omega)]

theorem up_loop_fix_iff (i : Nat) (h : BinaryMaxHeap T) :
    (heapify_up_loop h i).2 = i ↔ ¬(0 < i ∧ h.cmp i ((i - 1) / 2) = Ordering.gt) := by
  constructor
  · intro hfix hg
    have h1 := up_loop_le ((i - 1) / 2) (h.swap_elems_at_indices i ((i - 1) / 2))
    rw [up_loop_step h i hg.1 hg.2] at hfix
    omega
  · intro hstop
    rw [up_loop_stop h i hstop]

theorem up_loop_restores (i : Nat) (h : BinaryMaxHeap T) (hi : i < h.buffer.length)
    (hinv : UpInv h.buffer i) : heapProp (heapify_up_loop h i).1.buffer := by
  induction i using Nat.strong_induction_on generalizing h with
  | _ i IH =>
    by_cases hg : 0 < i ∧ h.cmp i ((i - 1) / 2) = Ordering.gt
    · obtain ⟨h0, hc⟩ := hg
      rw [up_loop_step h i h0 hc]
      have hlt : bg h.buffer ((i - 1) / 2) < bg h.buffer i := (cmp_gt_iff h _ _).mp hc
      set l := h.buffer with hl
      set p := (i - 1) / 2 with hp
      have hpi : p < i := by omega
      have hplen : p < l.length := by omega
      have hswapbuf : (h.swap_elems_at_indices i p).buffer = listSwap l i p := rfl
      have hvi : bg (listSwap l i p) i = bg l p := bg_listSwap_fst l i p hi hplen
      have hvp : bg (listSwap l i p) p = bg l i := bg_listSwap_snd l i p hplen
      have hvo : ∀ k, k ≠ i → k ≠ p → bg (listSwap l i p) k = bg l k :=
        fun k hki hkp => bg_listSwap_other l i p k hki hkp
      apply IH p hpi
      · rw [hswapbuf, length_listSwap]; omega
      · constructor
        · intro a b hcab hblen hbp
          rw [hswapbuf, length_listSwap] at hblen
          rw [hswapbuf]
          by_cases hbi : b = i
          · subst hbi
            have ha : a = p := by
              have := (child_parent hcab).1; omega
            subst ha
            rw [hvi, hvp]
            exact le_of_lt hlt
          · have hab := isChild_gt hcab
            by_cases hai : a = i
            · subst hai
              rw [hvi, hvo b hbi (by omega)]
              exact hinv.2 b hcab hblen h0
            · by_cases hap : a = p
              · subst hap
                rw [hvp, hvo b hbi hbp]
                exact le_of_lt (lt_of_le_of_lt (hinv.1 p b hcab hblen hbi) hlt)
              · rw [hvo b hbi hbp, hvo a hai hap]
                exact hinv.1 a b hcab hblen hbi
        · intro b hcb hblen hp0
          rw [hswapbuf, length_listSwap] at hblen
          rw [hswapbuf]
          have hpplt : (p - 1) / 2 < p := by omega
          have hpp : bg (listSwap l i p) ((p - 1) / 2) = bg l ((p - 1) / 2) :=
            hvo _ (by omega) (by omega)
          have hedge : bg l p ≤ bg l ((p - 1) / 2) :=
            hinv.1 _ p (parent_child hp0) hplen (by omega)
          by_cases hbi : b = i
          · subst hbi
            rw [hvi, hpp]
            exact hedge
          · have hbgt := isChild_gt hcb
            rw [hvo b hbi (by omega), hpp]
            exact le_trans (hinv.1 p b hcb hblen hbi) hedge
    · rw [up_loop_stop h i hg]
      intro a b hcab hblen
      by_cases hbi : b = i
      · subst hbi
        have hb0 : 0 < b := (child_parent hcab).2
        have ha : a = (b - 1) / 2 := (child_parent hcab).1
        subst ha
        have hc : ¬ h.cmp b ((b - 1) / 2) = Ordering.gt := fun hcg => hg ⟨hb0, hcg⟩
        rw [cmp_gt_iff] at hc
        exact not_lt.mp hc
      · exact hinv.1 a b hcab hblen hbi

theorem heapify_up_fst (h : BinaryMaxHeap T) (idx : Nat) :
    (heapify_up h idx).1 = (heapify_up_loop h idx).1 := by
  unfold heapify_up
  dsimp only
  split <;> rfl

theorem heapify_up_none_iff (h : BinaryMaxHeap T) (idx : Nat) :
    (heapify_up h idx).2 = none ↔ ¬(0 < idx ∧ h.cmp idx ((idx - 1) / 2) = Ordering.gt) := by
  rw [← up_loop_fix_iff idx h]
  unfold heapify_up
  dsimp only
  split <;> simp_all

theorem heapify_up_none_state (h : BinaryMaxHeap T) (idx : Nat)
    (hn : (heapify_up h idx).2 = none) : heapify_up h idx = (h, none) := by
  have hfix := (heapify_up_none_iff h idx).mp hn
  unfold heapify_up
  dsimp only
  rw [up_loop_stop h idx hfix]
  simp

theorem update_index_buffer (h : BinaryMaxHeap T) (i : Nat) :
    ((update_index h i).1).buffer = h.buffer := by
  unfold update_index
  split <;> rfl

theorem push_buffer_perm (h : BinaryMaxHeap T) (e : T) :
    List.Perm (push h e).buffer (h.buffer ++ [e]) := by
  unfold push
  dsimp only
  rw [heapify_up_fst]
  have hb : ((update_index { h with buffer := h.buffer ++ [e] } h.buffer.length).1).buffer
      = h.buffer ++ [e] := update_index_buffer _ _
  have := up_loop_perm h.buffer.length
    ((update_index { h with buffer := h.buffer ++ [e] } h.buffer.length).1)
  rw [hb] at this
  exact this (by simp)

theorem push_length (h : BinaryMaxHeap T) (e : T) :
    (push h e).buffer.length = h.buffer.length + 1 := by
  have := (push_buffer_perm h e).length_eq
  simpa using this

theorem push_heapProp (h : BinaryMaxHeap T) (e : T) (hp : heapProp h.buffer) :
    heapProp (push h e).buffer := by
  unfold push
  dsimp only
  rw [heapify_up_fst]
  have hb : ((update_index { h with buffer := h.buffer ++ [e] } h.buffer.length).1).buffer
      = h.buffer ++ [e] := update_index_buffer _ _
  apply up_loop_restores
  · rw [hb]; simp
  · rw [hb]
    constructor
    · intro a b hcab hblen hbne
      have hblt : b < h.buffer.length := by simp at hblen; omega
      have halt : a < h.buffer.length := by have := isChild_gt hcab; omega
      rw [bg_append_lt _ _ _ hblt, bg_append_lt _ _ _ halt]
      exact hp a b hcab hblt
    · intro b hcb hblen _
      unfold isChild at hcb
      simp at hblen
      omega

end BinaryMaxHeap

theorem inSub_self (r : Nat) : inSub r r = true := by
  rw [inSub]; simp

theorem inSub_ge {r j : Nat} (h : inSub r j = true) : r ≤ j := by
  rw [inSub] at h
  split_ifs at h <;> omega

theorem inSub_parent {r j : Nat} (h : inSub r j = true) (hne : j ≠ r) :
    inSub r ((j - 1) / 2) = true := by
  rw [inSub] at h
  split_ifs at h with h1 h2
  · exact absurd h1 hne
  · exact h

theorem inSub_child {r a b : Nat} (ha : inSub r a = true) (hc : isChild b a) :
    inSub r b = true := by
  have hba := isChild_gt hc
  have hra := inSub_ge ha
  have hparent : (b - 1) / 2 = a := by unfold isChild at hc; omega
  rw [inSub]
  have hbr : ¬ b = r := by omega
  have hblt : ¬ b < r := by omega
  simp only [hbr, hblt, if_false, hparent]
  exact ha

theorem inSub_child_rev {r a b : Nat} (hc : isChild b a) (hb : inSub r b = true)
    (hbr : b ≠ r) : inSub r a = true := by
  have h1 := inSub_parent hb hbr
  have hparent : (b - 1) / 2 = a := by unfold isChild at hc; omega
  rwa [hparent] at h1

theorem inSub_trans {r c j : Nat} (hc : inSub r c = true) (hj : inSub c j = true) :
    inSub r j = true := by
  induction j using Nat.strong_induction_on with
  | _ j IH =>
    by_cases hjc : j = c
    · subst hjc; exact hc
    · have hcj := inSub_ge hj
      have hj0 : 0 < j := by omega
      have hp := inSub_parent hj hjc
      have hrec := IH ((j - 1) / 2) (by omega) hp
      exact inSub_child hrec (parent_child hj0)

theorem inSub_zero (j : Nat) : inSub 0 j = true := by
  induction j using Nat.strong_induction_on with
  | _ j IH =>
    rw [inSub]
    by_cases h0 : j = 0
    · simp [h0]
    · have := IH ((j - 1) / 2) (by omega)
      simp [h0, this]

theorem inSub_not_of_lt {r j : Nat} (h : j < r) : inSub r j = false := by
  cases hb : inSub r j
  · rfl
  · have := inSub_ge hb; omega

namespace BinaryMaxHeap

theorem dnSelect_spec (l : List T) (i : Nat) :
    (dnSelect l i = i ∨ (dnSelect l i = 2 * i + 1 ∧ 2 * i + 1 < l.length)
      ∨ (dnSelect l i = 2 * i + 2 ∧ 2 * i + 2 < l.length))
    ∧ bg l i ≤ bg l (dnSelect l i)
    ∧ (2 * i + 1 < l.length → bg l (2 * i + 1) ≤ bg l (dnSelect l i))
    ∧ (2 * i + 2 < l.length → bg l (2 * i + 2) ≤ bg l (dnSelect l i))
    ∧ (dnSelect l i ≠ i → bg l i < bg l (dnSelect l i))
    ∧ (∀ j, j < dnSelect l i → (j = i ∨ j = 2 * i + 1) → bg l j < bg l (dnSelect l i)) := by
  unfold dnSelect
  dsimp only
  by_cases c1 : 2 * i + 1 < l.length ∧ compare (bg l i) (bg l (2 * i + 1)) = Ordering.lt
  · rw [if_pos c1]
    have h1 : bg l i < bg l (2 * i + 1) := compare_lt_iff_lt.mp c1.2
    by_cases c2 : 2 * i + 2 < l.length ∧ compare (bg l (2 * i + 1)) (bg l (2 * i + 2)) = Ordering.lt
    · rw [if_pos c2]
      have h2 : bg l (2 * i + 1) < bg l (2 * i + 2) := compare_lt_iff_lt.mp c2.2
      refine ⟨Or.inr (Or.inr ⟨rfl, c2.1⟩), le_of_lt (h1.trans h2), fun _ => le_of_lt h2,
        fun _ => le_refl _, fun _ => h1.trans h2, ?_⟩
      intro j _ hj
      rcases hj with hj | hj <;> subst hj
      · exact h1.trans h2
      · exact h2
    · rw [if_neg c2]
      have h2 : 2 * i + 2 < l.length → bg l (2 * i + 2) ≤ bg l (2 * i + 1) := by
        intro hrc
        have hnc : ¬ compare (bg l (2 * i + 1)) (bg l (2 * i + 2)) = Ordering.lt :=
          fun hb => c2 ⟨hrc, hb⟩
        rw [compare_lt_iff_lt] at hnc
        exact not_lt.mp hnc
      refine ⟨Or.inr (Or.inl ⟨rfl, c1.1⟩), le_of_lt h1, fun _ => le_refl _, h2,
        fun _ => h1, ?_⟩
      intro j hjlt hj
      rcases hj with hj | hj <;> subst hj
      · exact h1
      · omega
  · rw [if_neg c1]
    have h1 : 2 * i + 1 < l.length → bg l (2 * i + 1) ≤ bg l i := by
      intro hlc
      have hnc : ¬ compare (bg l i) (bg l (2 * i + 1)) = Ordering.lt := fun hb => c1 ⟨hlc, hb⟩
      rw [compare_lt_iff_lt] at hnc
      exact not_lt.mp hnc
    by_cases c2 : 2 * i + 2 < l.length ∧ compare (bg l i) (bg l (2 * i + 2)) = Ordering.lt
    · rw [if_pos c2]
      have h2 : bg l i < bg l (2 * i + 2) := compare_lt_iff_lt.mp c2.2
      refine ⟨Or.inr (Or.inr ⟨rfl, c2.1⟩), le_of_lt h2, fun hlc => (h1 hlc).trans (le_of_lt h2),
        fun _ => le_refl _, fun _ => h2, ?_⟩
      intro j _ hj
      rcases hj with hj | hj <;> subst hj
      · exact h2
      · exact lt_of_le_of_lt (h1 (by omega)) h2
    · rw [if_neg c2]
      have h2 : 2 * i + 2 < l.length → bg l (2 * i + 2) ≤ bg l i := by
        intro hrc
        have hnc : ¬ compare (bg l i) (bg l (2 * i + 2)) = Ordering.lt := fun hb => c2 ⟨hrc, hb⟩
        rw [compare_lt_iff_lt] at hnc
        exact not_lt.mp hnc
      refine ⟨Or.inl rfl, le_refl _, h1, h2, fun hne => absurd rfl hne, ?_⟩
      intro j hjlt hj
      rcases hj with hj | hj <;> omega

theorem dn_loop_step (h : BinaryMaxHeap T) (i : Nat)
    (hlt : i < h.buffer.length / 2) (hne : i ≠ dnSelect h.buffer i) :
    heapify_dn_loop h i =
      heapify_dn_loop (h.swap_elems_at_indices i (dnSelect h.buffer i))
        (dnSelect h.buffer i) := by
  rw [heapify_dn_loop]
  simp [hlt, hne]

theorem dn_loop_stop (h : BinaryMaxHeap T) (i : Nat)
    (hstop : ¬(i < h.buffer.length / 2 ∧ i ≠ dnSelect h.buffer i)) :
    heapify_dn_loop h i = (h, i) := by
  rw [heapify_dn_loop]
  by_cases h1 : i < h.buffer.length / 2
  · have h2 : ¬ i ≠ dnSelect h.buffer i := fun hn => hstop ⟨h1, hn⟩
    simp [h1, h2]
  · simp [h1]

theorem dn_loop_length (h : BinaryMaxHeap T) (i : Nat) :
    ((heapify_dn_loop h i).1.buffer).length = h.buffer.length := by
  induction h, i using heapify_dn_loop.induct with
  | case1 h i hlt m hne IH =>
    unfold m at hne IH
    rw [dn_loop_step h i hlt hne, IH, swap_buffer, length_listSwap]
  | case2 h i hlt m hne =>
    unfold m at hne
    rw [dn_loop_stop h i (by rw [not_and]; intro; simpa using hne)]
  | case3 h i hlt =>
    rw [dn_loop_stop h i (by rw [not_and]; intro hx; exact absurd hx hlt)]

theorem dnSelect_child (h : BinaryMaxHeap T) (i : Nat) (hne : i ≠ dnSelect h.buffer i) :
    isChild (dnSelect h.buffer i) i ∧ dnSelect h.buffer i < h.buffer.length := by
  rcases (dnSelect_spec h.buffer i).1 with hc | ⟨hc, hb⟩ | ⟨hc, hb⟩
  · exact absurd hc.symm hne
  · exact ⟨by rw [hc]; exact Or.inl rfl, by omega⟩
  · exact ⟨by rw [hc]; exact Or.inr rfl, by omega⟩

theorem dn_loop_ge (h : BinaryMaxHeap T) (i : Nat) : i ≤ (heapify_dn_loop h i).2 := by
  induction h, i using heapify_dn_loop.induct with
  | case1 h i hlt m hne IH =>
    unfold m at hne IH
    rw [dn_loop_step h i hlt hne]
    have hmi : i < dnSelect h.buffer i := isChild_gt (dnSelect_child h i hne).1
    omega
  | case2 h i hlt m hne =>
    unfold m at hne
    rw [dn_loop_stop h i (by rw [not_and]; intro; simpa using hne)]
  | case3 h i hlt =>
    rw [dn_loop_stop h i (by rw [not_and]; intro hx; exact absurd hx hlt)]

theorem dn_loop_inSub (h : BinaryMaxHeap T) (i : Nat) :
    ∀ r, inSub r i = true → inSub r (heapify_dn_loop h i).2 = true := by
  induction h, i using heapify_dn_loop.induct with
  | case1 h i hlt m hne IH =>
    unfold m at hne IH
    intro r hri
    rw [dn_loop_step h i hlt hne]
    exact IH r (inSub_child hri (dnSelect_child h i hne).1)
  | case2 h i hlt m hne =>
    unfold m at hne
    intro r hri
    rw [dn_loop_stop h i (by rw [not_and]; intro; simpa using hne)]
    exact hri
  | case3 h i hlt =>
    intro r hri
    rw [dn_loop_stop h i (by rw [not_and]; intro hx; exact absurd hx hlt)]
    exact hri

theorem dn_loop_outside (h : BinaryMaxHeap T) (i : Nat) :
    ∀ j, inSub i j = false → bg (heapify_dn_loop h i).1.buffer j = bg h.buffer j := by
  induction h, i using heapify_dn_loop.induct with
  | case1 h i hlt m hne IH =>
    unfold m at hne IH
    intro j hj
    rw [dn_loop_step h i hlt hne]
    have hchild := (dnSelect_child h i hne).1
    have him : inSub i (dnSelect h.buffer i) = true := inSub_child (inSub_self i) hchild
    have hji : j ≠ i := fun he => by rw [he, inSub_self] at hj; cases hj
    have hjm : j ≠ dnSelect h.buffer i := fun he => by rw [he, him] at hj; cases hj
    have hsubm : inSub (dnSelect h.buffer i) j = false := by
      cases hb : inSub (dnSelect h.buffer i) j
      · rfl
      · rw [inSub_trans him hb] at hj; cases hj
    rw [IH j hsubm, swap_buffer, bg_listSwap_other _ _ _ _ hji hjm]
  | case2 h i hlt m hne =>
    unfold m at hne
    intro j _
    rw [dn_loop_stop h i (by rw [not_and]; intro; simpa using hne)]
  | case3 h i hlt =>
    intro j _
    rw [dn_loop_stop h i (by rw [not_and]; intro hx; exact absurd hx hlt)]

theorem dn_loop_at (h : BinaryMaxHeap T) (i : Nat) :
    bg (heapify_dn_loop h i).1.buffer (heapify_dn_loop h i).2 = bg h.buffer i := by
  induction h, i using heapify_dn_loop.induct with
  | case1 h i hlt m hne IH =>
    unfold m at hne IH
    rw [dn_loop_step h i hlt hne, IH, swap_buffer,
      bg_listSwap_snd _ _ _ (dnSelect_child h i hne).2]
  | case2 h i hlt m hne =>
    unfold m at hne
    rw [dn_loop_stop h i (by rw [not_and]; intro; simpa using hne)]
  | case3 h i hlt =>
    rw [dn_loop_stop h i (by rw [not_and]; intro hx; exact absurd hx hlt)]

theorem dn_loop_perm (h : BinaryMaxHeap T) (i : Nat) :
    List.Perm (heapify_dn_loop h i).1.buffer h.buffer := by
  induction h, i using heapify_dn_loop.induct with
  | case1 h i hlt m hne IH =>
    unfold m at hne IH
    rw [dn_loop_step h i hlt hne]
    refine IH.trans ?_
    rw [swap_buffer]
    exact listSwap_perm _ _ _ (by omega) (dnSelect_child h i hne).2
  | case2 h i hlt m hne =>
    unfold m at hne
    rw [dn_loop_stop h i (by rw [not_and]; intro; simpa using hne)]
  | case3 h i hlt =>
    rw [dn_loop_stop h i (by rw [not_and]; intro hx; exact absurd hx hlt)]

theorem dn_loop_fix_iff (h : BinaryMaxHeap T) (i : Nat) :
    (heapify_dn_loop h i).2 = i ↔ ¬(i < h.buffer.length / 2 ∧ i ≠ dnSelect h.buffer i) := by
  constructor
  · intro hfix hg
    obtain ⟨hlt, hne⟩ := hg
    have hge := dn_loop_ge (h.swap_elems_at_indices i (dnSelect h.buffer i)) (dnSelect h.buffer i)
    have hmi : i < dnSelect h.buffer i := isChild_gt (dnSelect_child h i hne).1
    rw [dn_loop_step h i hlt hne] at hfix
    omega
  · intro hstop
    rw [dn_loop_stop h i hstop]

theorem dn_loop_root_val (h : BinaryMaxHeap T) (i : Nat) :
    bg (heapify_dn_loop h i).1.buffer i = bg h.buffer i ∨
    ∃ b, isChild b i ∧ b < h.buffer.length ∧
      bg (heapify_dn_loop h i).1.buffer i = bg h.buffer b := by
  by_cases hg : i < h.buffer.length / 2 ∧ i ≠ dnSelect h.buffer i
  · right
    obtain ⟨hlt, hne⟩ := hg
    obtain ⟨hchild, hmlen⟩ := dnSelect_child h i hne
    refine ⟨dnSelect h.buffer i, hchild, hmlen, ?_⟩
    rw [dn_loop_step h i hlt hne,
      dn_loop_outside _ _ i (inSub_not_of_lt (isChild_gt hchild)), swap_buffer,
      bg_listSwap_fst _ _ _ (by omega) hmlen]
  · left
    rw [dn_loop_stop h i hg]

theorem dn_loop_restores (h : BinaryMaxHeap T) (i : Nat) :
    ∀ r, inSub r i = true → DnInv r h.buffer i →
    ∀ a b, isChild b a → b < h.buffer.length → inSub r a = true →
      bg (heapify_dn_loop h i).1.buffer b ≤ bg (heapify_dn_loop h i).1.buffer a := by
  induction h, i using heapify_dn_loop.induct with
  | case1 h i hlt m hne IH =>
    unfold m at hne IH
    intro r hri hinv a b hcab hblen hra
    obtain ⟨hmchild, hmlen⟩ := dnSelect_child h i hne
    have hspec := dnSelect_spec h.buffer i
    have hilen : i < h.buffer.length := by omega
    have hmgt : i < dnSelect h.buffer i := isChild_gt hmchild
    have hlti : bg h.buffer i < bg h.buffer (dnSelect h.buffer i) :=
      hspec.2.2.2.2.1 (Ne.symm hne)
    have hpm : i = (dnSelect h.buffer i - 1) / 2 := (child_parent hmchild).1
    have hvi : bg (listSwap h.buffer i (dnSelect h.buffer i)) i
        = bg h.buffer (dnSelect h.buffer i) := bg_listSwap_fst _ _ _ hilen hmlen
    have hvm : bg (listSwap h.buffer i (dnSelect h.buffer i)) (dnSelect h.buffer i)
        = bg h.buffer i := bg_listSwap_snd _ _ _ hmlen
    have hvo : ∀ k, k ≠ i → k ≠ dnSelect h.buffer i →
        bg (listSwap h.buffer i (dnSelect h.buffer i)) k = bg h.buffer k :=
      fun k h1 h2 => bg_listSwap_other _ _ _ _ h1 h2
    rw [dn_loop_step h i hlt hne]
    apply IH r (inSub_child hri hmchild) ?_ a b hcab
      (by rw [swap_buffer, length_listSwap]; exact hblen) hra
    constructor
    · intro a' b' hc' hb'len hsub' hne'
      rw [swap_buffer, length_listSwap] at hb'len
      rw [swap_buffer]
      by_cases hb'i : b' = i
      · subst hb'i
        have ha' : a' = (b' - 1) / 2 := (child_parent hc').1
        have ha'lt : a' < b' := isChild_gt hc'
        by_cases hbr : b' = r
        · have := inSub_ge hsub'
          omega
        · have hpar : bg h.buffer (dnSelect h.buffer b') ≤ bg h.buffer ((b' - 1) / 2) :=
            hinv.2 (dnSelect h.buffer b') hmchild hmlen hbr
          rw [hvi, hvo a' (by omega) (by omega), ha']
          exact hpar
      · by_cases hb'm : b' = dnSelect h.buffer i
        · subst hb'm
          have ha' : a' = (dnSelect h.buffer i - 1) / 2 := (child_parent hc').1
          have ha'i : a' = i := by omega
          subst ha'i
          rw [hvm, hvi]
          exact le_of_lt hlti
        · have hvb : bg (listSwap h.buffer i (dnSelect h.buffer i)) b' = bg h.buffer b' :=
            hvo b' hb'i hb'm
          by_cases ha'i : a' = i
          · subst ha'i
            rw [hvb, hvi]
            rcases hc' with hb' | hb'
            · subst hb'
              exact hspec.2.2.1 hb'len
            · subst hb'
              exact hspec.2.2.2.1 hb'len
          · rw [hvb, hvo a' ha'i hne']
            exact hinv.1 a' b' hc' hb'len hsub' ha'i
    · intro b' hc' hb'len hmr
      rw [swap_buffer, length_listSwap] at hb'len
      rw [swap_buffer]
      have hb'gt : dnSelect h.buffer i < b' := isChild_gt hc'
      rw [hvo b' (by omega) (by omega), ← hpm, hvi]
      exact hinv.1 (dnSelect h.buffer i) b' hc' hb'len (inSub_child hri hmchild) (by omega)
  | case2 h i hlt m hne =>
    unfold m at hne
    intro r hri hinv a b hcab hblen hra
    have hmi : dnSelect h.buffer i = i := by
      have := of_not_not hne
      omega
    have hspec := dnSelect_spec h.buffer i
    rw [dn_loop_stop h i (by rw [not_and]; intro; simpa using hne)]
    by_cases hai : a = i
    · subst hai
      rcases hcab with hb | hb

      · subst hb
        have := hspec.2.2.1 hblen
        rwa [hmi] at this
      · subst hb
        have := hspec.2.2.2.1 hblen
        rwa [hmi] at this
    · exact hinv.1 a b hcab hblen hra hai
  | case3 h i hlt =>
    intro r hri hinv a b hcab hblen hra
    rw [dn_loop_stop h i (by rw [not_and]; intro hx; exact absurd hx hlt)]
    by_cases hai : a = i
    · subst hai
      unfold isChild at hcab
      omega
    · exact hinv.1 a b hcab hblen hra hai

theorem heapify_dn_fst (h : BinaryMaxHeap T) (idx : Nat) :
    (heapify_dn h idx).1 = (heapify_dn_loop h idx).1 := by
  unfold heapify_dn
  dsimp only
  split <;> rfl

theorem heapify_dn_none_iff (h : BinaryMaxHeap T) (idx : Nat) :
    (heapify_dn h idx).2 = none ↔
      ¬(idx < h.buffer.length / 2 ∧ idx ≠ dnSelect h.buffer idx) := by
  rw [← dn_loop_fix_iff h idx]
  unfold heapify_dn
  dsimp only
  split <;> simp_all

theorem heapify_dn_none_state (h : BinaryMaxHeap T) (idx : Nat)
    (hn : (heapify_dn h idx).2 = none) : heapify_dn h idx = (h, none) := by
  have hfix := (heapify_dn_none_iff h idx).mp hn
  unfold heapify_dn
  dsimp only
  rw [dn_loop_stop h idx hfix]
  simp

theorem heapify_dn_of_select_eq (h : BinaryMaxHeap T) (idx : Nat)
    (hsel : dnSelect h.buffer idx = idx) : heapify_dn h idx = (h, none) := by
  unfold heapify_dn
  dsimp only
  rw [dn_loop_stop h idx (by rw [not_and]; intro; omega)]
  simp

theorem heapify_up_moved (h : BinaryMaxHeap T) (idx : Nat)
    (hg : 0 < idx ∧ h.cmp idx ((idx - 1) / 2) = Ordering.gt) :
    heapify_up h idx = ((heapify_up_loop h idx).1, some (heapify_up_loop h idx).2) := by
  have hne : (heapify_up_loop h idx).2 ≠ idx := by
    intro hfix
    exact (up_loop_fix_iff idx h).mp hfix hg
  unfold heapify_up
  dsimp only
  rw [if_pos hne]

theorem is_empty_iff (h : BinaryMaxHeap T) : h.is_empty = true ↔ h.buffer = [] := by
  unfold is_empty
  exact List.isEmpty_iff

theorem pop_empty (h : BinaryMaxHeap T) (he : h.buffer = []) : pop h = (h, none) := by
  unfold pop
  rw [if_pos ((is_empty_iff h).mpr he)]

theorem pop_value (h : BinaryMaxHeap T) (hne : h.buffer ≠ []) :
    (pop h).2 = some (bg h.buffer 0) := by
  unfold pop
  rw [if_neg (fun hc => hne ((is_empty_iff h).mp hc))]

/-- The state threaded through `pop` on a non-empty heap, spelled out. -/
theorem pop_state (h : BinaryMaxHeap T) (hne : h.buffer ≠ []) :
    (pop h).1 = (heapify_dn ((update_index
      { buffer := (h.buffer.set 0 (h.buffer.getLastD default)).dropLast,
        index := h.index.erase (uid (bg h.buffer 0)) } 0).1) 0).1 := by
  unfold pop
  rw [if_neg (fun hc => hne ((is_empty_iff h).mp hc))]

theorem pop_length (h : BinaryMaxHeap T) (hne : h.buffer ≠ []) :
    (pop h).1.buffer.length = h.buffer.length - 1 := by
  rw [pop_state h hne, heapify_dn_fst, dn_loop_length, update_index_buffer]
  exact length_popMid _ _

theorem pop_perm (h : BinaryMaxHeap T) (hne : h.buffer ≠ []) :
    List.Perm (pop h).1.buffer h.buffer.tail := by
  rw [pop_state h hne, heapify_dn_fst]
  refine (dn_loop_perm _ _).trans ?_
  rw [update_index_buffer]
  exact popMid_perm h.buffer hne

theorem pop_heapProp (h : BinaryMaxHeap T) (hp : heapProp h.buffer) :
    heapProp (pop h).1.buffer := by
  by_cases hne : h.buffer = []
  · rw [pop_empty h hne]
    exact hp
  · rw [pop_state h hne, heapify_dn_fst]
    set h2 := (update_index
      { buffer := (h.buffer.set 0 (h.buffer.getLastD default)).dropLast,
        index := h.index.erase (uid (bg h.buffer 0)) } 0).1 with hh2
    have hbuf2 : h2.buffer = (h.buffer.set 0 (h.buffer.getLastD default)).dropLast :=
      update_index_buffer _ _
    have hlen2 : h2.buffer.length = h.buffer.length - 1 := by
      rw [hbuf2]; exact length_popMid _ _
    intro a b hcab hblen
    rw [dn_loop_length] at hblen
    refine dn_loop_restores h2 0 0 (inSub_self 0) ?_ a b hcab hblen (inSub_zero a)
    constructor
    · intro a' b' hc' hb'len hsub' hne'
      have ha'0 : 0 < a' := by omega
      have hb'a' := isChild_gt hc'
      rw [hlen2] at hb'len
      rw [hbuf2, bg_popMid _ _ b' (by omega) hb'len, bg_popMid _ _ a' (by omega) (by omega)]
      exact hp a' b' hc' (by omega)
    · intro b' _ _ hr
      exact absurd rfl hr

theorem validExceptAt_out (l : List T) (idx : Nat) (hv : validExceptAt l idx)
    (hidx : l.length ≤ idx) : heapProp l := by
  intro a b hcab hblen
  have := isChild_gt hcab
  exact hv.1 a b hcab hblen (by omega) (by omega)

/-- After a successful sift-up from `idx` on an almost-valid heap, the element
now at `idx` (the former parent of `idx`) is at least the children of `idx`, so
`dnSelect` picks `idx` itself. -/
theorem dnSelect_after_up (h : BinaryMaxHeap T) (idx : Nat) (hidx : idx < h.buffer.length)
    (hv : validExceptAt h.buffer idx) (h0 : 0 < idx)
    (hc : h.cmp idx ((idx - 1) / 2) = Ordering.gt) :
    dnSelect (heapify_up_loop h idx).1.buffer idx = idx := by
  set h1 := (heapify_up_loop h idx).1 with hh1
  have hlen1 : h1.buffer.length = h.buffer.length := up_loop_length idx h
  have hat : bg h1.buffer idx = bg h.buffer ((idx - 1) / 2) :=
    up_loop_at_start idx h h0 hc hidx
  have habove : ∀ j, idx < j → bg h1.buffer j = bg h.buffer j :=
    fun j hj => up_loop_above idx h j hj
  have hspec := dnSelect_spec h1.buffer idx
  by_contra hsel
  have hlt := hspec.2.2.2.2.1 hsel
  obtain ⟨hchild, hmlen⟩ : isChild (dnSelect h1.buffer idx) idx ∧
      dnSelect h1.buffer idx < h1.buffer.length := by
    rcases hspec.1 with hcx | ⟨hcx, hb⟩ | ⟨hcx, hb⟩
    · exact absurd hcx hsel
    · exact ⟨by rw [hcx]; exact Or.inl rfl, by omega⟩
    · exact ⟨by rw [hcx]; exact Or.inr rfl, by omega⟩
  have hgt := isChild_gt hchild
  have hmval : bg h1.buffer (dnSelect h1.buffer idx) = bg h.buffer (dnSelect h1.buffer idx) :=
    habove _ hgt
  have hbound : bg h.buffer (dnSelect h1.buffer idx) ≤ bg h.buffer ((idx - 1) / 2) :=
    hv.2 _ hchild (by omega) h0
  rw [hat, hmval] at hlt
  exact absurd hbound (not_le.mpr hlt)

/-- Main analysis of `restore_heap_property` on an almost-valid heap: the eager
second `heapify_dn` is a no-op whenever sift-up moved the element. -/
theorem restore_cases (h : BinaryMaxHeap T) (idx : Nat) (hidx : idx < h.buffer.length)
    (hv : validExceptAt h.buffer idx) :
    (0 < idx ∧ h.cmp idx ((idx - 1) / 2) = Ordering.gt →
      restore_heap_property h idx =
        ((heapify_up_loop h idx).1, some (heapify_up_loop h idx).2))
    ∧ (¬(0 < idx ∧ h.cmp idx ((idx - 1) / 2) = Ordering.gt) →
      restore_heap_property h idx = heapify_dn h idx) := by
  constructor
  · intro hg
    have hup := heapify_up_moved h idx hg
    have hdn : heapify_dn (heapify_up_loop h idx).1 idx = ((heapify_up_loop h idx).1, none) :=
      heapify_dn_of_select_eq _ _ (dnSelect_after_up h idx hidx hv hg.1 hg.2)
    unfold restore_heap_property
    rw [if_neg (by unfold len; omega)]
    dsimp only
    rw [hup]
    dsimp only
    rw [hdn]
    simp
  · intro hg
    have hup : heapify_up h idx = (h, none) := by
      unfold heapify_up
      dsimp only
      rw [up_loop_stop h idx hg]
      simp
    unfold restore_heap_property
    rw [if_neg (by unfold len; omega)]
    dsimp only
    rw [hup]
    simp

theorem bool_false_of_not {b : Bool} (h : ¬ b = true) : b = false := by
  cases b
  · rfl
  · exact absurd rfl h

theorem restore_heapProp (h : BinaryMaxHeap T) (idx : Nat)
    (hv : validExceptAt h.buffer idx) :
    heapProp (restore_heap_property h idx).1.buffer := by
  by_cases hidx : idx < h.buffer.length
  · by_cases hg : 0 < idx ∧ h.cmp idx ((idx - 1) / 2) = Ordering.gt
    · rw [(restore_cases h idx hidx hv).1 hg]
      apply up_loop_restores idx h hidx
      constructor
      · intro a b hcab hblen hbne
        by_cases hai : a = idx
        · subst hai
          have hlt : bg h.buffer ((a - 1) / 2) < bg h.buffer a := (cmp_gt_iff h _ _).mp hg.2
          exact le_of_lt (lt_of_le_of_lt (hv.2 b hcab hblen hg.1) hlt)
        · exact hv.1 a b hcab hblen hai hbne
      · exact hv.2
    · rw [(restore_cases h idx hidx hv).2 hg, heapify_dn_fst]
      intro a b hcab hblen
      rw [dn_loop_length] at hblen
      by_cases hsub : inSub idx a = true
      · refine dn_loop_restores h idx idx (inSub_self idx) ?_ a b hcab hblen hsub
        constructor
        · intro a' b' hc' hb'len hsub' hne'
          have ha'gt : idx < a' := by
            have := inSub_ge hsub'
            omega
          have hb'gt := isChild_gt hc'
          exact hv.1 a' b' hc' hb'len hne' (by omega)
        · intro b' _ _ hr
          exact absurd rfl hr
      · have hasub : inSub idx a = false := bool_false_of_not hsub
        have hanei : a ≠ idx := fun he => by rw [he, inSub_self] at hasub; cases hasub
        have havals : bg (heapify_dn_loop h idx).1.buffer a = bg h.buffer a :=
          dn_loop_outside h idx a hasub
        by_cases hbidx : b = idx
        · subst hbidx
          have hb0 : 0 < b := (child_parent hcab).2
          have ha : a = (b - 1) / 2 := (child_parent hcab).1
          rcases dn_loop_root_val h b with hroot | ⟨c, hcc, hclen, hroot⟩
          · rw [hroot, havals, ha]
            have hngt : ¬ h.cmp b ((b - 1) / 2) = Ordering.gt := fun hcg => hg ⟨hb0, hcg⟩
            rw [cmp_gt_iff] at hngt
            exact not_lt.mp hngt
          · rw [hroot, havals, ha]
            exact hv.2 c hcc hclen hb0
        · have hbsub : inSub idx b = false := by
            cases hb : inSub idx b
            · rfl
            · rw [inSub_child_rev hcab hb hbidx] at hasub
              cases hasub
          rw [havals, dn_loop_outside h idx b hbsub]
          exact hv.1 a b hcab hblen hanei hbidx
  · unfold restore_heap_property
    rw [if_pos (by unfold len; omega)]
    exact validExceptAt_out h.buffer idx hv (by omega)

theorem restore_eq_lazy (h : BinaryMaxHeap T) (idx : Nat)
    (hv : validExceptAt h.buffer idx) :
    restore_heap_property h idx = restore_heap_property_lazy h idx := by
  by_cases hidx : idx < h.buffer.length
  · by_cases hg : 0 < idx ∧ h.cmp idx ((idx - 1) / 2) = Ordering.gt
    · rw [(restore_cases h idx hidx hv).1 hg]
      unfold restore_heap_property_lazy
      rw [if_neg (by unfold len; omega), heapify_up_moved h idx hg]
    · rw [(restore_cases h idx hidx hv).2 hg]
      have hup : heapify_up h idx = (h, none) := by
        unfold heapify_up
        dsimp only
        rw [up_loop_stop h idx hg]
        simp
      unfold restore_heap_property_lazy
      rw [if_neg (by unfold len; omega), hup]
  · unfold restore_heap_property restore_heap_property_lazy
    rw [if_pos (by unfold len; omega), if_pos (by unfold len; omega)]

theorem fold_dn_length (is : List Nat) (h : BinaryMaxHeap T) :
    ((is.foldl (fun acc i => (heapify_dn acc i).1) h)).buffer.length = h.buffer.length := by
  induction is generalizing h with
  | nil => rfl
  | cons i is IH =>
    rw [List.foldl_cons, IH, heapify_dn_fst, dn_loop_length]

theorem fold_dn_perm (is : List Nat) (h : BinaryMaxHeap T) :
    List.Perm ((is.foldl (fun acc i => (heapify_dn acc i).1) h)).buffer h.buffer := by
  induction is generalizing h with
  | nil => exact List.Perm.refl _
  | cons i is IH =>
    rw [List.foldl_cons]
    refine (IH _).trans ?_
    rw [heapify_dn_fst]
    exact dn_loop_perm h i

theorem fold_update_buffer (is : List Nat) (h : BinaryMaxHeap T) :
    ((is.foldl (fun acc i => (update_index acc i).1) h)).buffer = h.buffer := by
  induction is generalizing h with
  | nil => rfl
  | cons i is IH =>
    rw [List.foldl_cons, IH, update_index_buffer]

theorem build_index_buffer (h : BinaryMaxHeap T) : (build_index h).buffer = h.buffer :=
  fold_update_buffer _ h

theorem build_fold_prop (n : Nat) : ∀ (h : BinaryMaxHeap T), n ≤ h.buffer.length / 2 →
    (∀ a b, isChild b a → b < h.buffer.length → n ≤ a → bg h.buffer b ≤ bg h.buffer a) →
    ∀ a b, isChild b a → b < h.buffer.length →
      bg ((List.range n).reverse.foldl (fun acc i => (heapify_dn acc i).1) h).buffer b ≤
      bg ((List.range n).reverse.foldl (fun acc i => (heapify_dn acc i).1) h).buffer a := by
  induction n with
  | zero =>
    intro h _ hbase a b hcab hblen
    simpa using hbase a b hcab hblen (by omega)
  | succ n IH =>
    intro h hn hbase a b hcab hblen
    have hrev : (List.range (n + 1)).reverse = n :: (List.range n).reverse := by
      rw [List.range_succ, List.reverse_append]
      rfl
    rw [hrev, List.foldl_cons]
    set h' := (heapify_dn h n).1 with hh'
    have hlen' : h'.buffer.length = h.buffer.length := by
      rw [hh', heapify_dn_fst, dn_loop_length]
    refine IH h' (by omega) ?_ a b hcab (by omega)
    intro a' b' hc' hb'len hna'
    rw [hlen'] at hb'len
    rw [hh', heapify_dn_fst]
    by_cases hsub : inSub n a' = true
    · refine dn_loop_restores h n n (inSub_self n) ?_ a' b' hc' hb'len hsub
      constructor
      · intro a'' b'' hc'' hb''len hsub'' hne''
        have := inSub_ge hsub''
        exact hbase a'' b'' hc'' hb''len (by omega)
      · intro b'' _ _ hr
        exact absurd rfl hr
    · have hasub : inSub n a' = false := bool_false_of_not hsub
      have hagt : n < a' := by
        rcases Nat.lt_or_ge n a' with hx | hx
        · exact hx
        · have : a' = n := by omega
          rw [this, inSub_self] at hasub
          cases hasub
      have hbgt := isChild_gt hc'
      have hbsub : inSub n b' = false := by
        cases hb : inSub n b'
        · rfl
        · rw [inSub_child_rev hc' hb (by omega)] at hasub
          cases hasub
      rw [dn_loop_outside h n a' hasub, dn_loop_outside h n b' hbsub]
      exact hbase a' b' hc' hb'len (by omega)

theorem build_heap_heapProp (h : BinaryMaxHeap T) : heapProp (build_heap h).buffer := by
  unfold build_heap
  dsimp only
  intro a b hcab hblen
  rw [fold_dn_length] at hblen
  have hlen : (build_index h).len = h.buffer.length := by
    unfold len
    rw [build_index_buffer]
  have hlen2 : (build_index h).buffer.length = h.buffer.length := by
    rw [build_index_buffer]
  refine build_fold_prop ((build_index h).len / 2) (build_index h) (by omega) ?_ a b hcab hblen
  intro a' b' hc' hb'len hna'
  rw [build_index_buffer] at hb'len
  unfold isChild at hc'
  rw [hlen] at hna'
  omega

theorem build_heap_buffer_perm (h : BinaryMaxHeap T) :
    List.Perm (build_heap h).buffer h.buffer := by
  unfold build_heap
  dsimp only
  refine (fold_dn_perm _ _).trans ?_
  rw [build_index_buffer]

theorem from_vec_heapProp (l : List T) : heapProp (from_vec l : BinaryMaxHeap T).buffer := by
  unfold from_vec
  dsimp only
  split
  · intro a b hcab hblen
    next he =>
    rw [is_empty_iff] at he
    dsimp only at he
    rw [he] at hblen
    simp at hblen
  · exact build_heap_heapProp _

theorem from_vec_buffer_perm (l : List T) :
    List.Perm (from_vec l : BinaryMaxHeap T).buffer l := by
  unfold from_vec
  dsimp only
  split
  · exact List.Perm.refl _
  · exact build_heap_buffer_perm _

theorem uid_ne (l : List T) (hn : uidsNodup l) {i j : Nat} (hi : i < l.length)
    (hj : j < l.length) (hij : i ≠ j) : uid (bg l i) ≠ uid (bg l j) := by
  rw [bg_eq_getElem l i hi, bg_eq_getElem l j hj]
  intro he
  have h1 : (l.map uid).get ⟨i, by simpa using hi⟩ = (l.map uid).get ⟨j, by simpa using hj⟩ := by
    rw [List.get_map, List.get_map]
    exact he
  have h2 := (List.Nodup.get_inj_iff hn).mp h1
  simp at h2
  exact hij h2

theorem uidsNodup_of_perm {l1 l2 : List T} (hp : List.Perm l1 l2) (hn : uidsNodup l2) :
    uidsNodup l1 := (List.Perm.nodup_iff (hp.map uid)).mpr hn

theorem uidsNodup_tail (l : List T) (hn : uidsNodup l) : uidsNodup l.tail := by
  unfold uidsNodup at hn ⊢
  rw [List.map_tail]
  exact List.Nodup.sublist (List.tail_sublist _) hn

theorem bg_mem (l : List T) (i : Nat) (hi : i < l.length) : bg l i ∈ l := by
  rw [bg_eq_getElem l i hi]
  exact List.get_mem l i hi

theorem getLastD_eq_bg (l : List T) (hne : l ≠ []) :
    l.getLastD default = bg l (l.length - 1) := by
  rw [List.getLastD_eq_getLast?, List.getLast?_eq_getLast _ hne]
  show l.getLast hne = _
  rw [List.getLast_eq_getElem, bg, List.getD_eq_getElem]

theorem update_index_lt (h : BinaryMaxHeap T) (i : Nat) (hi : i < h.buffer.length) :
    update_index h i =
      ({ h with index := h.index.insert (uid (bg h.buffer i)) i },
        h.index.lookup (uid (bg h.buffer i))) := by
  unfold update_index
  rw [if_neg (by omega)]

theorem update_index_ge (h : BinaryMaxHeap T) (i : Nat) (hi : h.buffer.length ≤ i) :
    update_index h i = (h, none) := by
  unfold update_index
  rw [if_pos (by omega)]

theorem mem_index_of_lookup {h : BinaryMaxHeap T} {u : Nat} {v : Nat}
    (hl : h.index.lookup u = some v) : u ∈ h.index := by
  by_contra hmem
  rw [← AList.lookup_eq_none] at hmem
  rw [hmem] at hl
  cases hl

theorem swap_indexConsistent (h : BinaryMaxHeap T) (i j : Nat) (hi : i < h.buffer.length)
    (hj : j < h.buffer.length) (hij : i ≠ j) (hn : uidsNodup h.buffer)
    (hic : indexConsistent h) : indexConsistent (h.swap_elems_at_indices i j) := by
  have huij : uid (bg h.buffer i) ≠ uid (bg h.buffer j) := uid_ne h.buffer hn hi hj hij
  constructor
  · intro k hk
    rw [swap_buffer, length_listSwap] at hk
    by_cases hki : k = i
    · subst hki
      rw [swap_buffer, bg_listSwap_fst h.buffer k j hi hj, swap_index]
      exact AList.lookup_insert _
    · by_cases hkj : k = j
      · subst hkj
        rw [swap_buffer, bg_listSwap_snd h.buffer i k hj, swap_index,
          AList.lookup_insert_ne huij]
        exact AList.lookup_insert _
      · have hkui : uid (bg h.buffer k) ≠ uid (bg h.buffer i) := uid_ne h.buffer hn hk hi hki
        have hkuj : uid (bg h.buffer k) ≠ uid (bg h.buffer j) := uid_ne h.buffer hn hk hj hkj
        rw [swap_buffer, bg_listSwap_other h.buffer i j k hki hkj, swap_index,
          AList.lookup_insert_ne hkuj, AList.lookup_insert_ne hkui]
        exact hic.1 k hk
  · intro u hu
    rw [swap_index, AList.mem_insert, AList.mem_insert] at hu
    rcases hu with hu | hu | hu
    · refine ⟨i, by rw [swap_buffer, length_listSwap]; exact hi, ?_⟩
      rw [swap_buffer, bg_listSwap_fst h.buffer i j hi hj, hu]
    · refine ⟨j, by rw [swap_buffer, length_listSwap]; exact hj, ?_⟩
      rw [swap_buffer, bg_listSwap_snd h.buffer i j hj, hu]
    · obtain ⟨k, hk, he⟩ := hic.2 u hu
      by_cases hki : k = i
      · subst hki
        refine ⟨j, by rw [swap_buffer, length_listSwap]; exact hj, ?_⟩
        rw [swap_buffer, bg_listSwap_snd h.buffer k j hj, he]
      · by_cases hkj : k = j
        · subst hkj
          refine ⟨i, by rw [swap_buffer, length_listSwap]; exact hi, ?_⟩
          rw [swap_buffer, bg_listSwap_fst h.buffer i k hi hj, he]
        · refine ⟨k, by rw [swap_buffer, length_listSwap]; exact hk, ?_⟩
          rw [swap_buffer, bg_listSwap_other h.buffer i j k hki hkj, he]

theorem swap_uidsNodup (h : BinaryMaxHeap T) (i j : Nat) (hi : i < h.buffer.length)
    (hj : j < h.buffer.length) (hn : uidsNodup h.buffer) :
    uidsNodup (h.swap_elems_at_indices i j).buffer := by
  rw [swap_buffer]
  exact uidsNodup_of_perm (listSwap_perm h.buffer i j hi hj) hn

theorem aList_mem_erase {s : AList (fun _ : Nat => Nat)} {u v : Nat} (hu : u ∈ s.erase v) :
    u ≠ v ∧ u ∈ s := by
  rw [AList.mem_keys, AList.keys_erase] at hu
  have h1 := (List.Nodup.mem_erase_iff (AList.keys_nodup s)).mp hu
  exact ⟨h1.1, AList.mem_keys.mpr h1.2⟩

theorem up_loop_ic (i : Nat) (h : BinaryMaxHeap T) (hi : i < h.buffer.length)
    (hn : uidsNodup h.buffer) (hic : indexConsistent h) :
    indexConsistent (heapify_up_loop h i).1 ∧ uidsNodup (heapify_up_loop h i).1.buffer := by
  induction i using Nat.strong_induction_on generalizing h with
  | _ i IH =>
    by_cases hg : 0 < i ∧ h.cmp i ((i - 1) / 2) = Ordering.gt
    · rw [up_loop_step h i hg.1 hg.2]
      have hplen : (i - 1) / 2 < h.buffer.length := by omega
      refine IH _ (by omega) _ ?_ ?_ ?_
      · rw [swap_buffer, length_listSwap]; omega
      · exact swap_uidsNodup h i _ hi hplen hn
      · exact swap_indexConsistent h i _ hi hplen (by omega) hn hic
    · rw [up_loop_stop h i hg]
      exact ⟨hic, hn⟩

theorem dn_loop_ic (h : BinaryMaxHeap T) (i : Nat)
    (hn : uidsNodup h.buffer) (hic : indexConsistent h) :
    indexConsistent (heapify_dn_loop h i).1 ∧ uidsNodup (heapify_dn_loop h i).1.buffer := by
  induction h, i using heapify_dn_loop.induct with
  | case1 h i hlt m hne IH =>
    unfold m at hne IH
    rw [dn_loop_step h i hlt hne]
    obtain ⟨hmchild, hmlen⟩ := dnSelect_child h i hne
    refine IH ?_ ?_
    · exact swap_uidsNodup h i _ (by omega) hmlen hn
    · exact swap_indexConsistent h i _ (by omega) hmlen hne hn hic
  | case2 h i hlt m hne =>
    unfold m at hne
    rw [dn_loop_stop h i (by rw [not_and]; intro; simpa using hne)]
    exact ⟨hic, hn⟩
  | case3 h i hlt =>
    rw [dn_loop_stop h i (by rw [not_and]; intro hx; exact absurd hx hlt)]
    exact ⟨hic, hn⟩

theorem push_ic (h : BinaryMaxHeap T) (e : T) (hn : uidsNodup h.buffer)
    (hic : indexConsistent h) (hfresh : uid e ∉ h.buffer.map uid) :
    indexConsistent (push h e) ∧ uidsNodup (push h e).buffer := by
  unfold push
  dsimp only
  have hlen1 : ({ h with buffer := h.buffer ++ [e] } : BinaryMaxHeap T).buffer.length
      = h.buffer.length + 1 := by simp
  rw [update_index_lt _ h.buffer.length (by omega)]
  dsimp only
  have hbg : bg (h.buffer ++ [e]) h.buffer.length = e := bg_append_self _ _
  have hn2 : uidsNodup (h.buffer ++ [e]) := by
    unfold uidsNodup
    rw [List.map_append, List.nodup_append]
    refine ⟨hn, by simp, ?_⟩
    intro x hx hx2
    simp only [List.map_cons, List.map_nil, List.mem_singleton] at hx2
    rw [hx2] at hx
    exact hfresh hx
  have hic2 : indexConsistent
      (⟨h.buffer ++ [e],
        h.index.insert (uid (bg (h.buffer ++ [e]) h.buffer.length)) h.buffer.length⟩ :
        BinaryMaxHeap T) := by
    constructor
    · intro k hk
      dsimp only at hk ⊢
      simp only [List.length_append, List.length_cons, List.length_nil] at hk
      by_cases hkl : k = h.buffer.length
      · subst hkl
        exact AList.lookup_insert _
      · have hklt : k < h.buffer.length := by omega
        have hne2 : uid (bg (h.buffer ++ [e]) k) ≠ uid (bg (h.buffer ++ [e]) h.buffer.length) := by
          rw [hbg, bg_append_lt _ _ _ hklt]
          intro he2
          exact hfresh (he2 ▸ List.mem_map_of_mem uid (bg_mem h.buffer k hklt))
        rw [AList.lookup_insert_ne hne2, bg_append_lt _ _ _ hklt]
        exact hic.1 k hklt
    · intro u hu
      dsimp only at hu ⊢
      rcases (AList.mem_insert _).mp hu with he | hmem
      · exact ⟨h.buffer.length, by simp, by rw [← he]⟩
      · obtain ⟨k, hk, he⟩ := hic.2 u hmem
        exact ⟨k, by simp; omega, by rw [bg_append_lt _ _ _ hk]; exact he⟩
  rw [heapify_up_fst]
  exact up_loop_ic h.buffer.length _ (by simp) hn2 hic2

theorem pop_ic (h : BinaryMaxHeap T) (hn : uidsNodup h.buffer) (hic : indexConsistent h) :
    indexConsistent (pop h).1 ∧ uidsNodup (pop h).1.buffer := by
  by_cases hne : h.buffer = []
  · rw [pop_empty h hne]
    exact ⟨hic, hn⟩
  · rw [pop_state h hne]
    have hlen0 : h.buffer.length ≠ 0 := fun h0 => hne (List.length_eq_zero.mp h0)
    have hmidlen : ((h.buffer.set 0 (h.buffer.getLastD default)).dropLast).length
        = h.buffer.length - 1 := length_popMid _ _
    have hnmid : uidsNodup ((h.buffer.set 0 (h.buffer.getLastD default)).dropLast) :=
      uidsNodup_of_perm (popMid_perm h.buffer hne) (uidsNodup_tail _ hn)
    by_cases h1len : h.buffer.length = 1
    · have hmid0 : ((h.buffer.set 0 (h.buffer.getLastD default)).dropLast).length = 0 := by omega
      rw [update_index_ge _ 0 (by dsimp only; omega)]
      have hdn : heapify_dn (⟨(h.buffer.set 0 (h.buffer.getLastD default)).dropLast,
          h.index.erase (uid (bg h.buffer 0))⟩ : BinaryMaxHeap T) 0
          = (⟨(h.buffer.set 0 (h.buffer.getLastD default)).dropLast,
              h.index.erase (uid (bg h.buffer 0))⟩, none) := by
        unfold heapify_dn
        dsimp only
        rw [dn_loop_stop _ 0 (by rw [not_and]; intro hx; dsimp only at hx; omega)]
        simp
      rw [hdn]
      refine ⟨⟨?_, ?_⟩, hnmid⟩
      · intro k hk
        dsimp only at hk
        omega
      · intro u hu
        dsimp only at hu
        obtain ⟨hune, humem⟩ := aList_mem_erase hu
        obtain ⟨k, hk, he⟩ := hic.2 u humem
        have hk0 : k = 0 := by omega
        rw [hk0] at he
        exact absurd he.symm hune
    · have hmidpos : 0 < ((h.buffer.set 0 (h.buffer.getLastD default)).dropLast).length := by
        omega
      rw [update_index_lt _ 0 (by dsimp only; omega)]
      dsimp only
      have hbg0 : bg ((h.buffer.set 0 (h.buffer.getLastD default)).dropLast) 0
          = bg h.buffer (h.buffer.length - 1) := by
        rw [bg_popMid_zero _ _ (by omega)]
        exact getLastD_eq_bg h.buffer hne
      have hic2 : indexConsistent
          (⟨(h.buffer.set 0 (h.buffer.getLastD default)).dropLast,
            (h.index.erase (uid (bg h.buffer 0))).insert
              (uid (bg ((h.buffer.set 0 (h.buffer.getLastD default)).dropLast) 0)) 0⟩ :
            BinaryMaxHeap T) := by
        constructor
        · intro k hk
          dsimp only at hk ⊢
          rw [hmidlen] at hk
          by_cases hk0 : k = 0
          · subst hk0
            exact AList.lookup_insert _
          · have hbgk : bg ((h.buffer.set 0 (h.buffer.getLastD default)).dropLast) k
                = bg h.buffer k := bg_popMid _ _ k (by omega) hk
            have hu1 : uid (bg h.buffer k)
                ≠ uid (bg ((h.buffer.set 0 (h.buffer.getLastD default)).dropLast) 0) := by
              rw [hbg0]
              exact uid_ne h.buffer hn (by omega) (by omega) (by omega)
            have hu2 : uid (bg h.buffer k) ≠ uid (bg h.buffer 0) :=
              uid_ne h.buffer hn (by omega) (by omega) hk0
            rw [hbgk, AList.lookup_insert_ne hu1, AList.lookup_erase_ne hu2]
            exact hic.1 k (by omega)
        · intro u hu
          dsimp only at hu ⊢
          rcases (AList.mem_insert _).mp hu with he | hmem
          · exact ⟨0, by omega, by rw [← he]⟩
          · obtain ⟨hune, humem⟩ := aList_mem_erase hmem
            obtain ⟨k, hk, he⟩ := hic.2 u humem
            have hk0 : k ≠ 0 := by
              intro hx
              rw [hx] at he
              exact hune he.symm
            by_cases hklast : k = h.buffer.length - 1
            · refine ⟨0, by omega, ?_⟩
              rw [hbg0, ← hklast]
              exact he
            · refine ⟨k, by omega, ?_⟩
              rw [bg_popMid _ _ k (by omega) (by omega)]
              exact he
      rw [heapify_dn_fst]
      exact dn_loop_ic _ 0 hnmid hic2

theorem fold_update_lookup (is : List Nat) : ∀ (h : BinaryMaxHeap T), uidsNodup h.buffer →
    (∀ i ∈ is, i < h.buffer.length) →
    ∀ k, k < h.buffer.length →
      (k ∈ is → ((is.foldl (fun acc i => (update_index acc i).1) h)).index.lookup
          (uid (bg h.buffer k)) = some k)
      ∧ (k ∉ is → ((is.foldl (fun acc i => (update_index acc i).1) h)).index.lookup
          (uid (bg h.buffer k)) = h.index.lookup (uid (bg h.buffer k))) := by
  induction is with
  | nil =>
    intro h _ _ k _
    exact ⟨fun hmem => absurd hmem (List.not_mem_nil k), fun _ => rfl⟩
  | cons i is IH =>
    intro h hn hall k hk
    have hilen : i < h.buffer.length := hall i (List.mem_cons_self i is)
    rw [List.foldl_cons, update_index_lt h i hilen]
    dsimp only
    have IH' := IH { h with index := h.index.insert (uid (bg h.buffer i)) i } hn
      (fun j hj => hall j (List.mem_cons_of_mem i hj)) k hk
    constructor
    · intro hmem
      rcases List.mem_cons.mp hmem with hki | hkis
      · by_cases hkis2 : k ∈ is
        · exact IH'.1 hkis2
        · rw [IH'.2 hkis2]
          subst hki
          exact AList.lookup_insert _
      · exact IH'.1 hkis
    · intro hmem
      have hki : ¬(k = i ∨ k ∈ is) := fun hx => hmem (List.mem_cons.mpr hx)
      push_neg at hki
      rw [IH'.2 hki.2]
      exact AList.lookup_insert_ne (uid_ne h.buffer hn hk hilen hki.1)

theorem fold_update_mem (is : List Nat) : ∀ (h : BinaryMaxHeap T),
    (∀ i ∈ is, i < h.buffer.length) →
    ∀ u, u ∈ ((is.foldl (fun acc i => (update_index acc i).1) h)).index →
      u ∈ h.index ∨ ∃ i, i ∈ is ∧ i < h.buffer.length ∧ uid (bg h.buffer i) = u := by
  induction is with
  | nil =>
    intro h _ u hu
    exact Or.inl hu
  | cons i is IH =>
    intro h hall u hu
    have hilen : i < h.buffer.length := hall i (List.mem_cons_self i is)
    rw [List.foldl_cons, update_index_lt h i hilen] at hu
    dsimp only at hu
    rcases IH { h with index := h.index.insert (uid (bg h.buffer i)) i }
        (fun j hj => hall j (List.mem_cons_of_mem i hj)) u hu with hmem | ⟨j, hjs, hjlen, he⟩
    · rcases (AList.mem_insert _).mp hmem with he | hmem2
      · exact Or.inr ⟨i, List.mem_cons_self i is, hilen, he.symm⟩
      · exact Or.inl hmem2
    · exact Or.inr ⟨j, List.mem_cons_of_mem i hjs, hjlen, he⟩

theorem build_index_establishes (h : BinaryMaxHeap T) (hn : uidsNodup h.buffer)
    (hdom : ∀ u ∈ h.index, ∃ i, i < h.buffer.length ∧ uid (bg h.buffer i) = u) :
    indexConsistent (build_index h) := by
  unfold build_index
  have hbuf : (((List.range h.len).foldl (fun acc i => (update_index acc i).1) h)).buffer
      = h.buffer := fold_update_buffer _ _
  have hlen : h.len = h.buffer.length := rfl
  constructor
  · intro k hk
    rw [hbuf] at hk ⊢
    exact (fold_update_lookup (List.range h.len) h hn
      (fun i hi => by rw [← hlen]; exact List.mem_range.mp hi) k hk).1
      (List.mem_range.mpr (by omega))
  · intro u hu
    rw [hbuf]
    rcases fold_update_mem (List.range h.len) h
        (fun i hi => by rw [← hlen]; exact List.mem_range.mp hi) u hu with hmem | ⟨i, _, hilen, he⟩
    · exact hdom u hmem
    · exact ⟨i, hilen, he⟩

theorem fold_dn_ic (is : List Nat) : ∀ (h : BinaryMaxHeap T), uidsNodup h.buffer →
    indexConsistent h →
    indexConsistent ((is.foldl (fun acc i => (heapify_dn acc i).1) h))
    ∧ uidsNodup ((is.foldl (fun acc i => (heapify_dn acc i).1) h)).buffer := by
  induction is with
  | nil =>
    intro h hn hic
    exact ⟨hic, hn⟩
  | cons i is IH =>
    intro h hn hic
    rw [List.foldl_cons]
    have h1 := dn_loop_ic h i hn hic
    refine IH _ ?_ ?_
    · rw [heapify_dn_fst]; exact h1.2
    · rw [heapify_dn_fst]; exact h1.1

theorem build_heap_ic (h : BinaryMaxHeap T) (hn : uidsNodup h.buffer)
    (hdom : ∀ u ∈ h.index, ∃ i, i < h.buffer.length ∧ uid (bg h.buffer i) = u) :
    indexConsistent (build_heap h) ∧ uidsNodup (build_heap h).buffer := by
  unfold build_heap
  dsimp only
  refine fold_dn_ic _ _ ?_ ?_
  · rw [build_index_buffer]; exact hn
  · exact build_index_establishes h hn hdom

theorem from_vec_ic (l : List T) (hn : uidsNodup l) :
    indexConsistent (from_vec l : BinaryMaxHeap T)
    ∧ uidsNodup (from_vec l : BinaryMaxHeap T).buffer := by
  unfold from_vec
  dsimp only
  split
  · next he =>
    rw [is_empty_iff] at he
    dsimp only at he
    refine ⟨⟨?_, ?_⟩, hn⟩
    · intro k hk
      dsimp only at hk
      rw [he] at hk
      simp at hk
    · intro u hu
      exact absurd hu (AList.not_mem_empty u)
  · exact build_heap_ic _ hn (fun u hu => absurd hu (AList.not_mem_empty u))

theorem restore_ic (h : BinaryMaxHeap T) (idx : Nat) (hn : uidsNodup h.buffer)
    (hic : indexConsistent h) :
    indexConsistent (restore_heap_property h idx).1
    ∧ uidsNodup (restore_heap_property h idx).1.buffer := by
  unfold restore_heap_property
  by_cases hidx : idx < h.buffer.length
  · rw [if_neg (by unfold len; omega)]
    dsimp only
    rw [heapify_dn_fst, heapify_up_fst]
    have hup := up_loop_ic idx h hidx hn hic
    exact dn_loop_ic _ idx hup.2 hup.1
  · rw [if_pos (by unfold len; omega)]
    exact ⟨hic, hn⟩

theorem indexConsistent_card (h : BinaryMaxHeap T) (hic : indexConsistent h)
    (hn : uidsNodup h.buffer) : h.index.keys.length = h.buffer.length := by
  have hkn : h.index.keys.Nodup := AList.keys_nodup h.index
  have hmemb : ∀ u, u ∈ h.index.keys ↔ u ∈ h.buffer.map uid := by
    intro u
    constructor
    · intro hu
      obtain ⟨i, hi, he⟩ := hic.2 u (AList.mem_keys.mpr hu)
      exact he ▸ List.mem_map_of_mem uid (bg_mem h.buffer i hi)
    · intro hu
      obtain ⟨x, hx, he⟩ := List.mem_map.mp hu
      obtain ⟨i, hi, hxe⟩ := List.mem_iff_getElem.mp hx
      have hbgi : bg h.buffer i = x := by rw [bg_eq_getElem h.buffer i hi]; exact hxe
      have hl : h.index.lookup u = some i := by
        rw [← he, ← hbgi]
        exact hic.1 i hi
      exact AList.mem_keys.mp (mem_index_of_lookup hl)
  have hperm : List.Perm h.index.keys (h.buffer.map uid) :=
    (List.perm_ext_iff_of_nodup hkn hn).mpr hmemb
  simpa using hperm.length_eq

theorem heapProp_root_le (l : List T) (hp : heapProp l) :
    ∀ k, k < l.length → bg l k ≤ bg l 0 := by
  intro k
  induction k using Nat.strong_induction_on with
  | _ k IH =>
    intro hk
    by_cases hk0 : k = 0
    · subst hk0
      exact le_refl _
    · have h0 : 0 < k := by omega
      have hpar := hp ((k - 1) / 2) k (parent_child h0) hk
      exact le_trans hpar (IH ((k - 1) / 2) (by omega) (by omega))

theorem mem_le_root (l : List T) (hp : heapProp l) {x : T} (hx : x ∈ l) : x ≤ bg l 0 := by
  obtain ⟨i, hi, he⟩ := List.mem_iff_getElem.mp hx
  have hbg : bg l i = x := by
    rw [bg_eq_getElem l i hi]
    exact he
  rw [← hbg]
  exact heapProp_root_le l hp i hi

theorem bg_zero_head (l : List T) (hne : l ≠ []) : bg l 0 = l.head hne := by
  cases l with
  | nil => exact absurd rfl hne
  | cons a t => rfl

end BinaryMaxHeap

theorem popN_succ_some (h h1 : Bheap.BinaryMaxHeap T) (n : Nat) (x : T)
    (hp : Bheap.BinaryMaxHeap.pop h = (h1, some x)) :
    popN h (n + 1) = (x :: (popN h1 n).1, (popN h1 n).2) := by
  simp only [popN, hp]

theorem popN_spec : ∀ (n : Nat) (h : Bheap.BinaryMaxHeap T), heapProp h.buffer →
    h.buffer.length = n →
    List.Perm (popN h n).1 h.buffer
    ∧ List.Sorted (fun a b => b ≤ a) (popN h n).1
    ∧ (popN h n).2.buffer = [] := by
  intro n
  induction n with
  | zero =>
    intro h _ hlen
    have he : h.buffer = [] := List.length_eq_zero.mp hlen
    exact ⟨by rw [he]; exact List.Perm.refl _, List.sorted_nil, he⟩
  | succ n IH =>
    intro h hp hlen
    have hne : h.buffer ≠ [] := by
      intro he
      rw [he] at hlen
      simp at hlen
    have hpair : Bheap.BinaryMaxHeap.pop h = ((Bheap.BinaryMaxHeap.pop h).1,
        some (bg h.buffer 0)) := by
      have hv := Bheap.BinaryMaxHeap.pop_value h hne
      exact Prod.ext rfl hv
    rw [popN_succ_some h _ n _ hpair]
    have hp1 : heapProp (Bheap.BinaryMaxHeap.pop h).1.buffer :=
      Bheap.BinaryMaxHeap.pop_heapProp h hp
    have hlen1 : (Bheap.BinaryMaxHeap.pop h).1.buffer.length = n := by
      rw [Bheap.BinaryMaxHeap.pop_length h hne]
      omega
    obtain ⟨hperm, hsort, hempty⟩ := IH (Bheap.BinaryMaxHeap.pop h).1 hp1 hlen1
    have htail : List.Perm (popN (Bheap.BinaryMaxHeap.pop h).1 n).1 h.buffer.tail :=
      hperm.trans (Bheap.BinaryMaxHeap.pop_perm h hne)
    refine ⟨?_, ?_, hempty⟩
    · have hcons : List.Perm (bg h.buffer 0 :: (popN (Bheap.BinaryMaxHeap.pop h).1 n).1)
          (bg h.buffer 0 :: h.buffer.tail) := htail.cons _
      have hht : bg h.buffer 0 :: h.buffer.tail = h.buffer := by
        rw [Bheap.BinaryMaxHeap.bg_zero_head h.buffer hne]
        exact List.head_cons_tail h.buffer hne
      rwa [hht] at hcons
    · rw [List.sorted_cons]
      refine ⟨?_, hsort⟩
      intro b hb
      have hbt : b ∈ h.buffer.tail := htail.mem_iff.mp hb
      exact Bheap.BinaryMaxHeap.mem_le_root h.buffer hp (List.mem_of_mem_tail hbt)

namespace BinaryMaxHeap

theorem foldl_push_facts (l : List T) : ∀ (h : BinaryMaxHeap T), heapProp h.buffer →
    heapProp (l.foldl push h).buffer
    ∧ List.Perm (l.foldl push h).buffer (h.buffer ++ l) := by
  induction l with
  | nil =>
    intro h hp
    exact ⟨hp, by simp⟩
  | cons e l IH =>
    intro h hp
    rw [List.foldl_cons]
    obtain ⟨hp1, hperm1⟩ := IH (push h e) (push_heapProp h e hp)
    refine ⟨hp1, hperm1.trans ?_⟩
    have h2 := (push_buffer_perm h e).append_right l
    refine h2.trans ?_
    rw [List.append_assoc]
    exact List.Perm.refl _

end BinaryMaxHeap

namespace BinaryMaxHeap

/-- C1: for every element type with a total order, after any public operation
(`from_vec`, `push`, `pop`, `restore_heap_property`, `build_heap`) returns, the
buffer satisfies the max-heap property (`buffer[i] ≥ buffer[c]` for every slot
`i` with a child slot `c` in range).  For `push` and `pop` the operation starts
from a state satisfying the invariant, and for `restore_heap_property` from a
state that is valid except possibly at the restored slot; `from_vec` and
`build_heap` are unconditional. -/
theorem C1_heap_property :
    (∀ l : List T, heapProp (from_vec l : BinaryMaxHeap T).buffer)
    ∧ (∀ (h : BinaryMaxHeap T) (e : T), heapProp h.buffer → heapProp (push h e).buffer)
    ∧ (∀ h : BinaryMaxHeap T, heapProp h.buffer → heapProp (pop h).1.buffer)
    ∧ (∀ (h : BinaryMaxHeap T) (idx : Nat), validExceptAt h.buffer idx →
        heapProp (restore_heap_property h idx).1.buffer)
    ∧ (∀ h : BinaryMaxHeap T, heapProp (build_heap h).buffer) :=
  ⟨from_vec_heapProp, push_heapProp, pop_heapProp,
    fun h idx hv => restore_heapProp h idx hv, build_heap_heapProp⟩

/-- Witness for C1 at concrete inputs: the hypotheses are discharged by
computation on explicit buffers. -/
theorem C1_heap_property_witness :
    heapProp ([5, 3, 4] : List Nat)
    ∧ validExceptAt ([1, 5, 4] : List Nat) 0
    ∧ heapProp (push (⟨[5, 3, 4], ∅⟩ : BinaryMaxHeap Nat) 7).buffer
    ∧ heapProp (pop (⟨[5, 3, 4], ∅⟩ : BinaryMaxHeap Nat)).1.buffer
    ∧ heapProp (restore_heap_property (⟨[1, 5, 4], ∅⟩ : BinaryMaxHeap Nat) 0).1.buffer :=
  ⟨by decide, by decide,
    C1_heap_property.2.1 ⟨[5, 3, 4], ∅⟩ 7 (by decide),
    C1_heap_property.2.2.1 ⟨[5, 3, 4], ∅⟩ (by decide),
    C1_heap_property.2.2.2.1 ⟨[1, 5, 4], ∅⟩ 0 (by decide)⟩

/-- C2: when the live elements have pairwise distinct uids, every public
operation started from an index-consistent state returns an index-consistent
state: every buffer slot is recorded in the index under its element's uid, and
the index holds exactly `len()` entries (no stale keys).  `from_vec` is
unconditional (it starts from the empty index). -/
theorem C2_index_consistency :
    (∀ l : List T, uidsNodup l →
      indexConsistent (from_vec l : BinaryMaxHeap T)
      ∧ (from_vec l : BinaryMaxHeap T).index.keys.length
          = (from_vec l : BinaryMaxHeap T).buffer.length)
    ∧ (∀ (h : BinaryMaxHeap T) (e : T), uidsNodup h.buffer → indexConsistent h →
        uid e ∉ h.buffer.map uid →
        indexConsistent (push h e)
        ∧ (push h e).index.keys.length = (push h e).buffer.length)
    ∧ (∀ h : BinaryMaxHeap T, uidsNodup h.buffer → indexConsistent h →
        indexConsistent (pop h).1
        ∧ (pop h).1.index.keys.length = (pop h).1.buffer.length)
    ∧ (∀ (h : BinaryMaxHeap T) (idx : Nat), uidsNodup h.buffer → indexConsistent h →
        indexConsistent (restore_heap_property h idx).1
        ∧ (restore_heap_property h idx).1.index.keys.length
            = (restore_heap_property h idx).1.buffer.length)
    ∧ (∀ h : BinaryMaxHeap T, uidsNodup h.buffer → indexConsistent h →
        indexConsistent (build_heap h)
        ∧ (build_heap h).index.keys.length = (build_heap h).buffer.length) := by
  refine ⟨?_, ?_, ?_, ?_, ?_⟩
  · intro l hn
    obtain ⟨hic, hn2⟩ := from_vec_ic l hn
    exact ⟨hic, indexConsistent_card _ hic hn2⟩
  · intro h e hn hic hfresh
    obtain ⟨hic2, hn2⟩ := push_ic h e hn hic hfresh
    exact ⟨hic2, indexConsistent_card _ hic2 hn2⟩
  · intro h hn hic
    obtain ⟨hic2, hn2⟩ := pop_ic h hn hic
    exact ⟨hic2, indexConsistent_card _ hic2 hn2⟩
  · intro h idx hn hic
    obtain ⟨hic2, hn2⟩ := restore_ic h idx hn hic
    exact ⟨hic2, indexConsistent_card _ hic2 hn2⟩
  · intro h hn hic
    obtain ⟨hic2, hn2⟩ := build_heap_ic h hn hic.2
    exact ⟨hic2, indexConsistent_card _ hic2 hn2⟩

/-- Witness for C2 at concrete inputs. -/
theorem C2_index_consistency_witness :
    uidsNodup ([2, 5] : List Nat)
    ∧ indexConsistent (from_vec ([2, 5] : List Nat))
    ∧ indexConsistent
        (push (⟨[3], (∅ : AList (fun _ : Nat => Nat)).insert 3 0⟩ : BinaryMaxHeap Nat) 9) :=
  ⟨by decide, (C2_index_consistency.1 [2, 5] (by decide)).1,
    (C2_index_consistency.2.1 ⟨[3], (∅ : AList (fun _ : Nat => Nat)).insert 3 0⟩ 9
      (by decide) (by decide) (by decide)).1⟩

/-- C3: pushing all elements of a list into an empty heap (or building the heap
with `from_vec`) and then popping `n = length` times yields the elements in
non-increasing order — exactly the input multiset sorted descending (equal to
`insertionSort` with the reversed order) — and leaves the heap empty, with the
(n+1)-th `pop` returning `none`. -/
theorem C3_pop_ordering (l : List T) :
    (List.Sorted (fun a b => b ≤ a) (popN (l.foldl push new) l.length).1
      ∧ (popN (l.foldl push new) l.length).1 = List.insertionSort (fun a b => b ≤ a) l
      ∧ (popN (l.foldl push new) l.length).2.buffer = []
      ∧ (pop (popN (l.foldl push new) l.length).2).2 = none)
    ∧ (List.Sorted (fun a b => b ≤ a) (popN (from_vec l) l.length).1
      ∧ (popN (from_vec l) l.length).1 = List.insertionSort (fun a b => b ≤ a) l
      ∧ (popN (from_vec l) l.length).2.buffer = []
      ∧ (pop (popN (from_vec l) l.length).2).2 = none) := by
  haveI hTot : IsTotal T (fun a b => b ≤ a) := ⟨fun a b => le_total b a⟩
  haveI hTrans : IsTrans T (fun a b => b ≤ a) := ⟨fun a b c hab hbc => le_trans hbc hab⟩
  haveI hAnti : IsAntisymm T (fun a b => b ≤ a) := ⟨fun a b h1 h2 => le_antisymm h2 h1⟩
  have hsortS : List.Sorted (fun a b => b ≤ a) (List.insertionSort (fun a b => b ≤ a) l) :=
    List.sorted_insertionSort _ l
  have hsortP : List.Perm (List.insertionSort (fun a b => b ≤ a) l) l :=
    List.perm_insertionSort _ l
  have hmain : ∀ h : BinaryMaxHeap T, heapProp h.buffer → List.Perm h.buffer l →
      List.Sorted (fun a b => b ≤ a) (popN h l.length).1
      ∧ (popN h l.length).1 = List.insertionSort (fun a b => b ≤ a) l
      ∧ (popN h l.length).2.buffer = []
      ∧ (pop (popN h l.length).2).2 = none := by
    intro h hp hperm
    have hlen : h.buffer.length = l.length := hperm.length_eq
    obtain ⟨hP, hS, hE⟩ := popN_spec l.length h hp hlen
    have heq : (popN h l.length).1 = List.insertionSort (fun a b => b ≤ a) l :=
      List.eq_of_perm_of_sorted ((hP.trans hperm).trans hsortP.symm) hS hsortS
    refine ⟨hS, heq, hE, ?_⟩
    rw [pop_empty _ hE]
  constructor
  · have hnew : (new : BinaryMaxHeap T).buffer = [] := rfl
    have hpnew : heapProp (new : BinaryMaxHeap T).buffer := by
      intro a b hcab hblen
      rw [hnew] at hblen
      simp at hblen
    obtain ⟨hpF, hpermF⟩ := foldl_push_facts l new hpnew
    have hpermF2 : List.Perm (l.foldl push new).buffer l := by
      rw [hnew] at hpermF
      simpa using hpermF
    exact hmain _ hpF hpermF2
  · exact hmain _ (from_vec_heapProp l) (from_vec_buffer_perm l)

theorem heapify_dn_some (h : BinaryMaxHeap T) (idx r : Nat)
    (hs : (heapify_dn h idx).2 = some r) :
    r = (heapify_dn_loop h idx).2 ∧ (heapify_dn_loop h idx).2 ≠ idx := by
  unfold heapify_dn at hs
  dsimp only at hs
  by_cases hne : (heapify_dn_loop h idx).2 ≠ idx
  · rw [if_pos hne] at hs
    simp only at hs
    cases hs
    exact ⟨rfl, hne⟩
  · rw [if_neg hne] at hs
    simp at hs

/-- C4: `restore_heap_property` returns `(h, none)` when the slot is out of
range; otherwise, on a heap valid except possibly at the slot, sift-up is
attempted first and sift-down takes effect only when the element did not move
up (the final state equals the post-sift-up state whenever sift-up moved); the
call returns `some` of the slot where the original element ended when it
moved, and `none` — with the heap unchanged — when it did not move. -/
theorem C4_restore_contract :
    (∀ (h : BinaryMaxHeap T) (idx : Nat), h.len ≤ idx →
      restore_heap_property h idx = (h, none))
    ∧ (∀ (h : BinaryMaxHeap T) (idx : Nat), idx < h.len → validExceptAt h.buffer idx →
        ((heapify_up h idx).2 ≠ none → restore_heap_property h idx = heapify_up h idx)
        ∧ ((heapify_up h idx).2 = none → restore_heap_property h idx = heapify_dn h idx)
        ∧ (∀ r, (restore_heap_property h idx).2 = some r →
            r ≠ idx ∧ bg (restore_heap_property h idx).1.buffer r = bg h.buffer idx)
        ∧ ((restore_heap_property h idx).2 = none → (restore_heap_property h idx).1 = h)) := by
  constructor
  · intro h idx hge
    unfold restore_heap_property
    rw [if_pos hge]
  · intro h idx hidx hv
    have hidx2 : idx < h.buffer.length := hidx
    by_cases hg : 0 < idx ∧ h.cmp idx ((idx - 1) / 2) = Ordering.gt
    · have hres := (restore_cases h idx hidx2 hv).1 hg
      have hup := heapify_up_moved h idx hg
      have hfixne : (heapify_up_loop h idx).2 ≠ idx :=
        fun hfix => (up_loop_fix_iff idx h).mp hfix hg
      refine ⟨fun _ => by rw [hres, hup], ?_, ?_, ?_⟩
      · intro hnone
        rw [hup] at hnone
        simp at hnone
      · intro r hr
        rw [hres] at hr
        simp only at hr
        cases hr
        refine ⟨hfixne, ?_⟩
        rw [hres]
        exact up_loop_at idx h hidx2
      · intro hnone
        rw [hres] at hnone
        simp at hnone
    · have hres := (restore_cases h idx hidx2 hv).2 hg
      have hupn : heapify_up h idx = (h, none) := by
        unfold heapify_up
        dsimp only
        rw [up_loop_stop h idx hg]
        simp
      refine ⟨?_, fun _ => hres, ?_, ?_⟩
      · intro hne
        rw [hupn] at hne
        simp at hne
      · intro r hr
        rw [hres] at hr
        obtain ⟨hre, hne⟩ := heapify_dn_some h idx r hr
        refine ⟨by rw [hre]; exact hne, ?_⟩
        rw [hres, heapify_dn_fst, hre]
        exact dn_loop_at h idx
      · intro hnone
        rw [hres] at hnone
        rw [hres, heapify_dn_none_state h idx hnone]

/-- Witness for C4 at concrete inputs: an out-of-range call, and an in-range
call on the almost-valid heap `[1, 5]` whose slot 1 must sift up. -/
theorem C4_restore_contract_witness :
    restore_heap_property (⟨[2], ∅⟩ : BinaryMaxHeap Nat) 5 = (⟨[2], ∅⟩, none)
    ∧ restore_heap_property
        (⟨[1, 5], ((∅ : AList (fun _ : Nat => Nat)).insert 1 0).insert 5 1⟩ : BinaryMaxHeap Nat) 1
      = heapify_up
        (⟨[1, 5], ((∅ : AList (fun _ : Nat => Nat)).insert 1 0).insert 5 1⟩ : BinaryMaxHeap Nat) 1 :=
  ⟨C4_restore_contract.1 ⟨[2], ∅⟩ 5 (by decide),
    (C4_restore_contract.2 ⟨[1, 5], ((∅ : AList (fun _ : Nat => Nat)).insert 1 0).insert 5 1⟩ 1
        (by decide) (by decide)).1
      (fun hn => absurd ((heapify_up_none_iff _ _).mp hn) (by decide))⟩

/-- C5: on a non-empty heap, `pop` returns the element at slot 0 (the maximum
under the heap property, by C1/C6), shrinks the buffer by one by moving the
last slot into slot 0, erases the popped uid from the index (which stays
absent), re-indexes slot 0 and sifts down from slot 0; when the removal
empties the heap, the unchecked `update_index(0)` and `heapify_dn(0)` are
plain no-ops on the empty buffer rather than errors or out-of-range
accesses. -/
theorem C5_pop_contract :
    (∀ h : BinaryMaxHeap T, h.buffer ≠ [] →
      (pop h).2 = some (bg h.buffer 0)
      ∧ (pop h).1.buffer.length = h.buffer.length - 1
      ∧ (pop h).1 = (heapify_dn ((update_index
          (⟨(h.buffer.set 0 (h.buffer.getLastD default)).dropLast,
            h.index.erase (uid (bg h.buffer 0))⟩ : BinaryMaxHeap T) 0).1) 0).1
      ∧ (uidsNodup h.buffer → indexConsistent h →
          (pop h).1.index.lookup (uid (bg h.buffer 0)) = none)
      ∧ (h.buffer.length = 1 →
          (pop h).1 = ⟨[], h.index.erase (uid (bg h.buffer 0))⟩))
    ∧ (∀ m : AList (fun _ : Nat => Nat),
        update_index (⟨[], m⟩ : BinaryMaxHeap T) 0 = (⟨[], m⟩, none)
        ∧ heapify_dn (⟨[], m⟩ : BinaryMaxHeap T) 0 = (⟨[], m⟩, none)) := by
  have hnoop : ∀ m : AList (fun _ : Nat => Nat),
      update_index (⟨[], m⟩ : BinaryMaxHeap T) 0 = (⟨[], m⟩, none)
      ∧ heapify_dn (⟨[], m⟩ : BinaryMaxHeap T) 0 = (⟨[], m⟩, none) := by
    intro m
    constructor
    · exact update_index_ge _ 0 (by simp)
    · unfold heapify_dn
      dsimp only
      rw [dn_loop_stop _ 0 (by rw [not_and]; intro hx; simp at hx)]
      simp
  refine ⟨?_, hnoop⟩
  intro h hne
  refine ⟨pop_value h hne, pop_length h hne, pop_state h hne, ?_, ?_⟩
  · intro hn hic
    obtain ⟨hic2, _⟩ := pop_ic h hn hic
    cases hl : (pop h).1.index.lookup (uid (bg h.buffer 0)) with
    | none => rfl
    | some v =>
      exfalso
      obtain ⟨i, hi, he⟩ := hic2.2 _ (mem_index_of_lookup hl)
      have hmemtail : bg (pop h).1.buffer i ∈ h.buffer.tail :=
        (pop_perm h hne).mem_iff.mp (bg_mem _ i hi)
      have hmap : uid (bg (pop h).1.buffer i) ∈ h.buffer.tail.map uid :=
        List.mem_map_of_mem uid hmemtail
      rw [he] at hmap
      cases hb : h.buffer with
      | nil => exact hne hb
      | cons a t =>
        rw [hb] at hmap hn
        have hba : bg (a :: t) 0 = a := rfl
        rw [hba] at hmap
        unfold uidsNodup at hn
        rw [List.map_cons, List.nodup_cons] at hn
        simp only [List.tail_cons] at hmap
        exact hn.1 hmap
  · intro h1len
    rw [pop_state h hne]
    have hmid : (h.buffer.set 0 (h.buffer.getLastD default)).dropLast = [] := by
      apply List.length_eq_zero.mp
      rw [length_popMid]
      omega
    rw [hmid, (hnoop _).1, (hnoop _).2]

/-- Witness for C5 at concrete inputs. -/
theorem C5_pop_contract_witness :
    (pop (⟨[4, 2], ((∅ : AList (fun _ : Nat => Nat)).insert 4 0).insert 2 1⟩ :
        BinaryMaxHeap Nat)).2 = some (bg ([4, 2] : List Nat) 0)
    ∧ heapify_dn (⟨[], ∅⟩ : BinaryMaxHeap Nat) 0 = (⟨[], ∅⟩, none) :=
  ⟨(C5_pop_contract.1 ⟨[4, 2], ((∅ : AList (fun _ : Nat => Nat)).insert 4 0).insert 2 1⟩
      (by decide)).1,
    (C5_pop_contract.2 ∅).2⟩

/-- C8: `from_vec` adopts the given sequence as the buffer in its given order
and runs `build_heap` on it (for the empty vector both sides are the same
empty heap); `build_heap` first populates the index with the one-pass scan
`build_index` and then runs sift-down for every slot of `(0..len/2).rev()`,
that is slots `len/2 - 1` down to `0` in descending order; afterwards the heap
property holds unconditionally and, for distinct uids, so does index
consistency. -/
theorem C8_from_vec_build :
    (∀ l : List T, from_vec l = build_heap (⟨l, ∅⟩ : BinaryMaxHeap T))
    ∧ (∀ h : BinaryMaxHeap T, build_heap h =
        ((List.range ((build_index h).len / 2)).reverse).foldl
          (fun acc i => (heapify_dn acc i).1) (build_index h))
    ∧ (∀ h : BinaryMaxHeap T, build_index h =
        (List.range h.len).foldl (fun acc i => (update_index acc i).1) h)
    ∧ (∀ h : BinaryMaxHeap T, heapProp (build_heap h).buffer)
    ∧ (∀ l : List T, uidsNodup l →
        indexConsistent (from_vec l : BinaryMaxHeap T)
        ∧ heapProp (from_vec l : BinaryMaxHeap T).buffer) := by
  refine ⟨?_, fun h => rfl, fun h => rfl, build_heap_heapProp,
    fun l hn => ⟨(from_vec_ic l hn).1, from_vec_heapProp l⟩⟩
  intro l
  by_cases he : l = []
  · subst he
    have h2 : build_heap (⟨[], ∅⟩ : BinaryMaxHeap T) = ⟨[], ∅⟩ := by
      unfold build_heap build_index len
      simp
    rw [h2]
    rfl
  · unfold from_vec
    dsimp only
    rw [if_neg (fun hc => he ((is_empty_iff _).mp hc))]

/-- Witness for C8 at a concrete input. -/
theorem C8_from_vec_build_witness :
    uidsNodup ([1, 7, 2] : List Nat) ∧ indexConsistent (from_vec ([1, 7, 2] : List Nat)) :=
  ⟨by decide, (C8_from_vec_build.2.2.2.2 [1, 7, 2] (by decide)).1⟩

/-- C9: although the source's `heapify_up(idx).or(heapify_dn(idx))` evaluates
`heapify_dn(idx)` eagerly even after a successful sift-up, on a heap valid
except possibly at `idx` a successful sift-up leaves the former parent of
`idx` at slot `idx`, which is at least the children of `idx`, so that extra
sift-down selects no child and returns `none` without changing buffer or
index; `restore_heap_property` therefore equals the lazy variant
`restore_heap_property_lazy` (`heapify_up(idx).or_else(|| heapify_dn(idx))`). -/
theorem C9_or_eager_noop :
    ∀ (h : BinaryMaxHeap T) (idx : Nat), validExceptAt h.buffer idx →
      restore_heap_property h idx = restore_heap_property_lazy h idx
      ∧ (idx < h.len → (heapify_up h idx).2 ≠ none →
          heapify_dn (heapify_up h idx).1 idx = ((heapify_up h idx).1, none)) := by
  intro h idx hv
  refine ⟨restore_eq_lazy h idx hv, ?_⟩
  intro hidx hne
  have hg : 0 < idx ∧ h.cmp idx ((idx - 1) / 2) = Ordering.gt := by
    by_contra hgn
    exact hne ((heapify_up_none_iff h idx).mpr hgn)
  have hup := heapify_up_moved h idx hg
  rw [hup]
  dsimp only
  exact heapify_dn_of_select_eq _ _ (dnSelect_after_up h idx hidx hv hg.1 hg.2)

/-- Witness for C9 at concrete inputs: the equivalence on `[1, 5]` restoring
slot 1 (which sifts up), and the no-op second sift-down there. -/
theorem C9_or_eager_noop_witness :
    restore_heap_property
        (⟨[1, 5], ((∅ : AList (fun _ : Nat => Nat)).insert 1 0).insert 5 1⟩ : BinaryMaxHeap Nat) 1
      = restore_heap_property_lazy
        (⟨[1, 5], ((∅ : AList (fun _ : Nat => Nat)).insert 1 0).insert 5 1⟩ : BinaryMaxHeap Nat) 1
    ∧ heapify_dn
        (heapify_up (⟨[1, 5], ((∅ : AList (fun _ : Nat => Nat)).insert 1 0).insert 5 1⟩ :
          BinaryMaxHeap Nat) 1).1 1
      = ((heapify_up (⟨[1, 5], ((∅ : AList (fun _ : Nat => Nat)).insert 1 0).insert 5 1⟩ :
          BinaryMaxHeap Nat) 1).1, none) :=
  ⟨(C9_or_eager_noop ⟨[1, 5], ((∅ : AList (fun _ : Nat => Nat)).insert 1 0).insert 5 1⟩ 1
      (by decide)).1,
    (C9_or_eager_noop ⟨[1, 5], ((∅ : AList (fun _ : Nat => Nat)).insert 1 0).insert 5 1⟩ 1
        (by decide)).2 (by decide)
      (fun hn => absurd ((heapify_up_none_iff _ _).mp hn) (by decide))⟩

/-- C6: `peek` and `pop` return `none` exactly when the heap is empty; on a
non-empty heap `peek` returns the element at buffer slot 0, which is the
maximum when the heap property holds, and `pop` on an empty heap leaves the
heap (buffer and index) unchanged.  `peek`, being a `&self` method, is embedded
as a pure function of the heap, so it cannot mutate the heap by construction. -/
theorem C6_peek_pop_empty :
    (∀ h : BinaryMaxHeap T, peek h = none ↔ h.len = 0)
    ∧ (∀ h : BinaryMaxHeap T, (pop h).2 = none ↔ h.len = 0)
    ∧ (∀ h : BinaryMaxHeap T, h.len = 0 → pop h = (h, none))
    ∧ (∀ h : BinaryMaxHeap T, h.len ≠ 0 → peek h = some (bg h.buffer 0))
    ∧ (∀ h : BinaryMaxHeap T, heapProp h.buffer →
        ∀ k, k < h.len → bg h.buffer k ≤ bg h.buffer 0) := by
  have hlen0 : ∀ h : BinaryMaxHeap T, h.len = 0 ↔ h.buffer = [] := by
    intro h
    unfold len
    exact List.length_eq_zero
  refine ⟨?_, ?_, ?_, ?_, ?_⟩
  · intro h
    unfold peek
    rw [hlen0]
    by_cases he : h.buffer = []
    · rw [if_pos ((is_empty_iff h).mpr he)]
      simp [he]
    · rw [if_neg (fun hc => he ((is_empty_iff h).mp hc))]
      simp [he]
  · intro h
    rw [hlen0]
    by_cases he : h.buffer = []
    · rw [pop_empty h he]
      simp [he]
    · rw [pop_value h he]
      simp [he]
  · intro h he
    exact pop_empty h ((hlen0 h).mp he)
  · intro h he
    unfold peek
    rw [if_neg (fun hc => he ((hlen0 h).mpr ((is_empty_iff h).mp hc)))]
  · intro h hp k hk
    exact heapProp_root_le h.buffer hp k hk

/-- Witness for C6 at concrete inputs. -/
theorem C6_peek_pop_empty_witness :
    (pop (⟨[], ∅⟩ : BinaryMaxHeap Nat) = (⟨[], ∅⟩, none))
    ∧ (peek (⟨[4, 2], ∅⟩ : BinaryMaxHeap Nat) = some (bg ([4, 2] : List Nat) 0)) :=
  ⟨C6_peek_pop_empty.2.2.1 ⟨[], ∅⟩ (by decide),
    C6_peek_pop_empty.2.2.2.1 ⟨[4, 2], ∅⟩ (by decide)⟩

/-- C7: in the sift-down child selection, a slot different from `i` is selected
only when its element is strictly greater than the one at `i`, ties keep the
earlier slot (slot `i` over either child, the left child over the right child),
and the loop swaps `i` exactly with the selected slot (so the layout is the
deterministic result of these comparisons). -/
theorem C7_tie_break :
    (∀ (l : List T) (i : Nat),
      (dnSelect l i = i ∨ (dnSelect l i = 2 * i + 1 ∧ 2 * i + 1 < l.length)
        ∨ (dnSelect l i = 2 * i + 2 ∧ 2 * i + 2 < l.length))
      ∧ (dnSelect l i ≠ i → bg l i < bg l (dnSelect l i))
      ∧ (∀ j, j < dnSelect l i → (j = i ∨ j = 2 * i + 1) → bg l j < bg l (dnSelect l i)))
    ∧ (∀ (h : BinaryMaxHeap T) (i : Nat), i < h.buffer.length / 2 →
        (i ≠ dnSelect h.buffer i →
          heapify_dn_loop h i =
            heapify_dn_loop (h.swap_elems_at_indices i (dnSelect h.buffer i))
              (dnSelect h.buffer i))
        ∧ (i = dnSelect h.buffer i → heapify_dn_loop h i = (h, i))) := by
  constructor
  · intro l i
    have hs := dnSelect_spec l i
    exact ⟨hs.1, hs.2.2.2.2.1, hs.2.2.2.2.2⟩
  · intro h i hlt
    constructor
    · intro hne
      exact dn_loop_step h i hlt hne
    · intro heq
      exact dn_loop_stop h i (by rw [not_and]; intro; omega)

/-- Witness for C7: on the buffer `[1, 5, 5]` the two children of slot 0 tie at
value 5 and the left child (slot 1) is selected; the selection is strictly
greater than slot 0. -/
theorem C7_tie_break_witness :
    bg ([1, 5, 5] : List Nat) 0 < bg ([1, 5, 5] : List Nat) (dnSelect [1, 5, 5] 0)
    ∧ dnSelect ([1, 5, 5] : List Nat) 0 = 1 :=
  ⟨(C7_tie_break.1 ([1, 5, 5] : List Nat) 0).2.1 (by decide), by decide⟩

/-- C10: `push` always grows the buffer by exactly one element (it has no
failure case), a `pop` that returns `some` shrinks it by exactly one, and a
`pop` that returns `none` leaves the heap unchanged.  The query methods
(`is_empty`, `len`, `peek`, `index_in_heap_from_uid`, `index_in_heap`) take
`&self` and are embedded as pure functions of the heap, so they leave the
buffer and the index unchanged by construction; the equations below record
that each only reads the current buffer or index. -/
theorem C10_frame :
    (∀ (h : BinaryMaxHeap T) (e : T), (push h e).buffer.length = h.buffer.length + 1)
    ∧ (∀ h : BinaryMaxHeap T, (pop h).2.isSome = true →
        (pop h).1.buffer.length + 1 = h.buffer.length)
    ∧ (∀ h : BinaryMaxHeap T, (pop h).2 = none → (pop h).1 = h)
    ∧ (∀ h : BinaryMaxHeap T, is_empty h = h.buffer.isEmpty)
    ∧ (∀ h : BinaryMaxHeap T, len h = h.buffer.length)
    ∧ (∀ (h : BinaryMaxHeap T) (u : Nat), index_in_heap_from_uid h u = h.index.lookup u)
    ∧ (∀ (h : BinaryMaxHeap T) (e : T), index_in_heap h e = h.index.lookup (uid e)) := by
  refine ⟨push_length, ?_, ?_, fun _ => rfl, fun _ => rfl, fun _ _ => rfl, fun _ _ => rfl⟩
  · intro h hs
    by_cases he : h.buffer = []
    · rw [pop_empty h he] at hs
      simp at hs
    · rw [pop_length h he]
      have : h.buffer.length ≠ 0 := fun h0 => he (List.length_eq_zero.mp h0)
      omega
  · intro h hn
    by_cases he : h.buffer = []
    · rw [pop_empty h he]
    · rw [pop_value h he] at hn
      cases hn

/-- Witness for C10 at concrete inputs. -/
theorem C10_frame_witness :
    (pop (⟨[7], (∅ : AList (fun _ : Nat => Nat)).insert 7 0⟩ :
        BinaryMaxHeap Nat)).1.buffer.length + 1 = 1
    ∧ (pop (⟨[], ∅⟩ : BinaryMaxHeap Nat)).1 = ⟨[], ∅⟩ :=
  ⟨C10_frame.2.1 ⟨[7], (∅ : AList (fun _ : Nat => Nat)).insert 7 0⟩
      (by rw [pop_value _ (by decide)]; rfl),
    C10_frame.2.2.1 ⟨[], ∅⟩ (by decide)⟩

end BinaryMaxHeap

end Bheap
